import Mathlib

/-!
Verification development for the StreamFlow music application.

The frontend (TypeScript/React) sources live under src/: the playback
component src/components/Player.tsx, the application shell src/App.tsx,
and the container library src/utils/MergeSort.ts and src/utils/Queue.ts.
JavaScript numbers are embedded as rationals, machine integers as Int/Nat.
The backend recommendation engine (backend/recommendations.py) is not part
of the repository snapshot; where a claim depends on it, the corresponding
definitions are modelled from the specification and are marked as such in
their doc comments.
-/

namespace StreamFlow

/-! ## src/utils/MergeSort.ts

The TypeScript comparator returns a number; we embed it as a rational-valued
function.  The code only ever tests comparator(a, b) <= 0, so the induced
"take from the left" relation is cmp a b ≤ 0.
-/

/-- Embedding of the private function merge from src/utils/MergeSort.ts:
while both inputs are nonempty, take the left head when
comparator(left, right) <= 0 (ties favour the left array), otherwise the
right head; afterwards concatenate whatever remains. -/
def merge {α : Type _} (cmp : α → α → ℚ) : List α → List α → List α
  | [], r => r
  | l, [] => l
  | a :: l, b :: r =>
    if cmp a b ≤ 0 then a :: merge cmp l (b :: r) else b :: merge cmp (a :: l) r
termination_by l r => l.length + r.length

/-- Embedding of mergeSort from src/utils/MergeSort.ts: arrays of length at
most one are returned as given; otherwise the array is split at
Math.floor(length / 2) (Nat division) and the recursively sorted halves are
merged. -/
def mergeSort {α : Type _} (cmp : α → α → ℚ) (arr : List α) : List α :=
  if arr.length ≤ 1 then arr
  else
    merge cmp (mergeSort cmp (arr.take (arr.length / 2)))
      (mergeSort cmp (arr.drop (arr.length / 2)))
termination_by arr.length
decreasing_by
  · simp only [List.length_take]
    omega
  · simp only [List.length_drop]
    omega

theorem merge_perm {α : Type _} (cmp : α → α → ℚ) :
    ∀ l r : List α, (merge cmp l r).Perm (l ++ r)
  | [], r => by simp [merge]
  | a :: l, [] => by simp [merge]
  | a :: l, b :: r => by
    rw [merge]
    by_cases h : cmp a b ≤ 0
    · simpa [h] using (merge_perm cmp l (b :: r)).cons a
    · simp only [if_neg h]
      exact ((merge_perm cmp (a :: l) r).cons b).trans List.perm_middle.symm
termination_by l r => l.length + r.length

theorem mem_merge {α : Type _} {cmp : α → α → ℚ} {x : α} {l r : List α} :
    x ∈ merge cmp l r ↔ x ∈ l ∨ x ∈ r := by
  rw [(merge_perm cmp l r).mem_iff, List.mem_append]

theorem merge_sorted {α : Type _} (cmp : α → α → ℚ)
    (htrans : ∀ a b c, cmp a b ≤ 0 → cmp b c ≤ 0 → cmp a c ≤ 0)
    (htot : ∀ a b, cmp a b ≤ 0 ∨ cmp b a ≤ 0) :
    ∀ l r : List α, l.Pairwise (fun a b => cmp a b ≤ 0) →
      r.Pairwise (fun a b => cmp a b ≤ 0) →
      (merge cmp l r).Pairwise (fun a b => cmp a b ≤ 0)
  | [], r, _, hr => by simpa [merge] using hr
  | a :: l, [], hl, _ => by simpa [merge] using hl
  | a :: l, b :: r, hl, hr => by
    rw [merge]
    rcases List.pairwise_cons.mp hl with ⟨ha, hl'⟩
    rcases List.pairwise_cons.mp hr with ⟨hb, hr'⟩
    by_cases h : cmp a b ≤ 0
    · simp only [if_pos h]
      refine List.pairwise_cons.mpr ⟨?_, merge_sorted cmp htrans htot l (b :: r) hl' hr⟩
      intro x hx
      rcases mem_merge.mp hx with hx | hx
      · exact ha x hx
      · rcases List.mem_cons.mp hx with rfl | hx
        · exact h
        · exact htrans a b x h (hb x hx)
    · simp only [if_neg h]
      have hba : cmp b a ≤ 0 := (htot a b).resolve_left h
      refine List.pairwise_cons.mpr ⟨?_, merge_sorted cmp htrans htot (a :: l) r hl hr'⟩
      intro x hx
      rcases mem_merge.mp hx with hx | hx
      · rcases List.mem_cons.mp hx with rfl | hx
        · exact hba
        · exact htrans b a x hba (ha x hx)
      · exact hb x hx
termination_by l r => l.length + r.length

/-- Stability of merge: when p carves out a single comparator-equivalence
class (any two members compare ≤ 0 both ways), merging a sorted left run
with any right run keeps all left members of the class before all right
members, so filtering by p yields the two filtered runs concatenated. -/
theorem merge_filter {α : Type _} (cmp : α → α → ℚ)
    (htrans : ∀ a b c, cmp a b ≤ 0 → cmp b c ≤ 0 → cmp a c ≤ 0)
    (p : α → Bool) (hp : ∀ x y, p x = true → p y = true → cmp x y ≤ 0) :
    ∀ l r : List α, l.Pairwise (fun a b => cmp a b ≤ 0) →
      (merge cmp l r).filter p = l.filter p ++ r.filter p
  | [], r, _ => by simp [merge]
  | a :: l, [], _ => by simp [merge]
  | a :: l, b :: r, hl => by
    rw [merge]
    rcases List.pairwise_cons.mp hl with ⟨ha, hl'⟩
    by_cases h : cmp a b ≤ 0
    · simp only [if_pos h, List.filter_cons]
      rw [merge_filter cmp htrans p hp l (b :: r) hl']
      by_cases hpa : p a <;> simp [hpa, List.filter_cons]
    · simp only [if_neg h]
      rw [List.filter_cons]
      by_cases hpb : p b
      · simp only [if_pos hpb]
        have hnil : (a :: l).filter p = [] := by
          rw [List.filter_eq_nil_iff]
          intro c hc hpc
          have hcb : cmp c b ≤ 0 := hp c b hpc hpb
          rcases List.mem_cons.mp hc with rfl | hc
          · exact h hcb
          · exact h (htrans a c b (ha c hc) hcb)
        rw [merge_filter cmp htrans p hp (a :: l) r hl, hnil]
        simp [List.filter_cons, hpb]
      · simp only [if_neg hpb]
        rw [merge_filter cmp htrans p hp (a :: l) r hl]
        simp [List.filter_cons, hpb]
termination_by l r => l.length + r.length

theorem mergeSort_perm {α : Type _} (cmp : α → α → ℚ) :
    ∀ l : List α, (mergeSort cmp l).Perm l
  | l => by
    rw [mergeSort]
    split
    · exact List.Perm.refl l
    · refine (merge_perm cmp _ _).trans ?_
      refine ((mergeSort_perm cmp _).append (mergeSort_perm cmp _)).trans ?_
      rw [List.take_append_drop]
termination_by l => l.length
decreasing_by
  · simp only [List.length_take]
    omega
  · simp only [List.length_drop]
    omega

theorem mergeSort_sorted {α : Type _} (cmp : α → α → ℚ)
    (htrans : ∀ a b c, cmp a b ≤ 0 → cmp b c ≤ 0 → cmp a c ≤ 0)
    (htot : ∀ a b, cmp a b ≤ 0 ∨ cmp b a ≤ 0) :
    ∀ l : List α, (mergeSort cmp l).Pairwise (fun a b => cmp a b ≤ 0)
  | [] => by rw [mergeSort]; simp
  | [a] => by rw [mergeSort]; simp
  | a :: b :: t => by
    rw [mergeSort]
    rw [if_neg (by simp)]
    exact merge_sorted cmp htrans htot _ _
      (mergeSort_sorted cmp htrans htot ((a :: b :: t).take ((a :: b :: t).length / 2)))
      (mergeSort_sorted cmp htrans htot ((a :: b :: t).drop ((a :: b :: t).length / 2)))
termination_by l => l.length
decreasing_by
  · simp only [List.length_take, List.length_cons]
    omega
  · simp only [List.length_drop, List.length_cons]
    omega

/-- Stability of mergeSort, phrased through equivalence classes: filtering
the output by any comparator-equivalence-class predicate gives exactly the
same list as filtering the input, i.e. equivalent elements keep their
original relative order. -/
theorem mergeSort_filter {α : Type _} (cmp : α → α → ℚ)
    (htrans : ∀ a b c, cmp a b ≤ 0 → cmp b c ≤ 0 → cmp a c ≤ 0)
    (htot : ∀ a b, cmp a b ≤ 0 ∨ cmp b a ≤ 0)
    (p : α → Bool) (hp : ∀ x y, p x = true → p y = true → cmp x y ≤ 0) :
    ∀ l : List α, (mergeSort cmp l).filter p = l.filter p
  | l => by
    rw [mergeSort]
    split
    · rfl
    · rw [merge_filter cmp htrans p hp _ _ (mergeSort_sorted cmp htrans htot _),
        mergeSort_filter cmp htrans htot p hp (l.take (l.length / 2)),
        mergeSort_filter cmp htrans htot p hp (l.drop (l.length / 2)),
        ← List.filter_append, List.take_append_drop]
termination_by l => l.length
decreasing_by
  · simp only [List.length_take]
    omega
  · simp only [List.length_drop]
    omega

/-! ## src/components/Player.tsx

The Player component is embedded as a state machine.  Numbers (audio
positions, durations, rates) are rationals.  The machine state collects the
audio element state (currentTime, duration) and the React component state
(progress, duration, playStartTime, hasLoggedPlay) of Player.tsx.

App.tsx renders the Player with key = currentSong.id, so a Player instance
lives for exactly one song, and every App code path that sets currentSong
(playNextInQueue, handleNext, handlePrev) also sets isPlaying to true; the
mount-time effect on [isPlaying] therefore runs with the freshly loaded
audio at position 0 and sets playStartTime to 0.  The model's initial state
applies that effect to the raw component state.

Event emission: logPlayEvent and logSkipEvent post JSON bodies with
listen_duration resp. time_before_skip passed through Math.floor and
completion_rate unrounded; when unauthenticated they return without
posting, which only removes events, so the model records every event the
handlers construct.
-/

/-- Body of a POST /api/play-history request built by logPlayEvent in
src/components/Player.tsx (listen_duration is Math.floor of the computed
duration; the song id is fixed for the lifetime of a Player and omitted). -/
structure PlayLog where
  listenDuration : ℤ
  completionRate : ℚ
  completed : Bool
deriving DecidableEq, Repr

/-- Body of a POST /api/skips request built by logSkipEvent in
src/components/Player.tsx (time_before_skip is Math.floor of the computed
duration). -/
structure SkipLog where
  timeBeforeSkip : ℤ
deriving DecidableEq, Repr

/-- An event emitted by the Player. -/
inductive Logged where
  | play : PlayLog → Logged
  | skip : SkipLog → Logged
deriving DecidableEq, Repr

/-- Embedding of logPlayEvent from src/components/Player.tsx. -/
def logPlayEvent (listenDuration completionRate : ℚ) (completed : Bool) : Logged :=
  Logged.play ⟨⌊listenDuration⌋, completionRate, completed⟩

/-- Embedding of logSkipEvent from src/components/Player.tsx. -/
def logSkipEvent (timeBeforeSkip : ℚ) : Logged :=
  Logged.skip ⟨⌊timeBeforeSkip⌋⟩

/-- State of one mounted Player instance: the audio element's duration and
currentTime plus the React state of Player.tsx. -/
structure PState where
  dur : ℚ
  pos : ℚ
  progress : ℚ
  durationState : ℚ
  playStartTime : Option ℚ
  hasLoggedPlay : Bool
  playing : Bool
deriving DecidableEq, Repr

/-- Inputs driving a Player instance: the play/pause prop toggling
(handlePlayPause in App.tsx), a seek through the progress bar (handleSeek),
an audio timeupdate/loadedmetadata event (handleTimeUpdate), the audio
ended event (handleEnded), and a manual prev/next skip (handleSkip). -/
inductive PEvent where
  | toggle
  | seek (t : ℚ)
  | tick (t : ℚ)
  | ended
  | skip
deriving DecidableEq, Repr

/-- A media element clamps any assigned or reported currentTime into
[0, duration]. -/
def clampPos (s : PState) (t : ℚ) : ℚ := max 0 (min t s.dur)

/-- The effect on [isPlaying] in Player.tsx: when playback starts and no
start time is recorded yet, record the current audio position. -/
def effectPlayingTrue (s : PState) : PState :=
  { s with
    playing := true
    playStartTime := match s.playStartTime with
      | none => some s.pos
      | some t => some t }

/-- State of a freshly mounted Player (see the section comment: App.tsx
mounts the Player for a new song with isPlaying = true, so the effect runs
at audio position 0). -/
def initState (dur : ℚ) : PState :=
  effectPlayingTrue ⟨dur, 0, 0, 0, none, false, false⟩

/-- The completion rate handleSkip computes from the React duration state:
duration > 0 ? currentTime / duration : 0. -/
def skipRate (s : PState) : ℚ :=
  if 0 < s.durationState then s.pos / s.durationState else 0

/-- Embedding of handleTimeUpdate: store progress and duration, and when
the song's duration is known, no play has been logged, and the completion
rate currentTime / duration reaches 0.8, log a completed play. -/
def handleTimeUpdate (s : PState) (t : ℚ) : PState × List Logged :=
  let pos := clampPos s t
  let s1 := { s with pos := pos, progress := pos, durationState := s.dur }
  if 0 < s.dur ∧ s.hasLoggedPlay = false ∧ (8 : ℚ)/10 ≤ pos / s.dur then
    ({ s1 with hasLoggedPlay := true },
      [logPlayEvent (pos - (s.playStartTime.getD 0)) (pos / s.dur) true])
  else (s1, [])

/-- Embedding of handleEnded: when a start time exists and no play was
logged, log a play with completion_rate 1.0 and listen duration computed
from the React duration state.  (The parent then switches songs, which
remounts the Player.) -/
def handleEnded (s : PState) : PState × List Logged :=
  match s.playStartTime with
  | none => (s, [])
  | some st =>
    if s.hasLoggedPlay = false then (s, [logPlayEvent (s.durationState - st) 1 true])
    else (s, [])

/-- Embedding of handleSkip: with a recorded start time, compute the
listen duration and the completion rate from the React duration state; log
a skip when the rate is below 0.8, otherwise log a completed play unless
one was already logged. -/
def handleSkip (s : PState) : PState × List Logged :=
  match s.playStartTime with
  | none => (s, [])
  | some st =>
    let listen := s.pos - st
    let rate := skipRate s
    if rate < (8 : ℚ)/10 then (s, [logSkipEvent listen])
    else if s.hasLoggedPlay = false then (s, [logPlayEvent listen rate true])
    else (s, [])

/-- Embedding of handleSeek: assign the chosen time to the audio element
(which clamps it) and mirror it into the progress state. -/
def handleSeek (s : PState) (t : ℚ) : PState × List Logged :=
  let t2 := clampPos s t
  ({ s with pos := t2, progress := t2 }, [])

/-- One step of the Player machine. -/
def step (s : PState) : PEvent → PState × List Logged
  | PEvent.toggle =>
    if s.playing then ({ s with playing := false }, []) else (effectPlayingTrue s, [])
  | PEvent.seek t => handleSeek s t
  | PEvent.tick t => handleTimeUpdate s t
  | PEvent.ended => handleEnded s
  | PEvent.skip => handleSkip s

/-- Run the machine from a state, collecting every emitted event. -/
def runFrom (s : PState) : List PEvent → PState × List Logged
  | [] => (s, [])
  | e :: evs =>
    let p := step s e
    let q := runFrom p.1 evs
    (q.1, p.2 ++ q.2)

/-- Run a freshly mounted Player on an event sequence. -/
def run (dur : ℚ) (evs : List PEvent) : PState × List Logged :=
  runFrom (initState dur) evs

/-- Invariant of every reachable Player state: the recorded play start
time is 0, the audio position lies in [0, dur], and the React duration
state is either its initial 0 or the audio duration. -/
def PInv (s : PState) : Prop :=
  s.playStartTime = some 0 ∧ 0 ≤ s.pos ∧ s.pos ≤ s.dur ∧ 0 ≤ s.dur ∧
    (s.durationState = 0 ∨ s.durationState = s.dur)

/-- The events the Player can emit: plays are flagged completed with a
completion rate in [0.8, 1] and a non-negative listen duration; skips have
a non-negative time_before_skip. -/
def GoodLog : Logged → Prop
  | Logged.play p =>
    0 ≤ p.listenDuration ∧ 0 ≤ p.completionRate ∧ p.completionRate ≤ 1 ∧
      p.completed = true ∧ (8 : ℚ)/10 ≤ p.completionRate
  | Logged.skip k => 0 ≤ k.timeBeforeSkip

theorem initState_inv (dur : ℚ) (hdur : 0 ≤ dur) : PInv (initState dur) := by
  refine ⟨rfl, le_refl 0, hdur, hdur, Or.inl rfl⟩

theorem clampPos_nonneg (s : PState) (t : ℚ) : 0 ≤ clampPos s t :=
  le_max_left 0 _

theorem clampPos_le (s : PState) (t : ℚ) (h : 0 ≤ s.dur) : clampPos s t ≤ s.dur :=
  max_le h (min_le_right t s.dur)

theorem handleEnded_fst (s : PState) : (handleEnded s).1 = s := by
  rw [handleEnded]
  rcases s.playStartTime with _ | st
  · rfl
  · dsimp only
    split <;> rfl

theorem handleSkip_fst (s : PState) : (handleSkip s).1 = s := by
  rw [handleSkip]
  rcases s.playStartTime with _ | st
  · rfl
  · dsimp only
    split
    · rfl
    · split <;> rfl

theorem step_inv (s : PState) (e : PEvent) (h : PInv s) : PInv (step s e).1 := by
  obtain ⟨hst, hpos0, hposd, hdur, hds⟩ := h
  cases e with
  | toggle =>
    simp only [step]
    split
    · exact ⟨hst, hpos0, hposd, hdur, hds⟩
    · refine ⟨?_, hpos0, hposd, hdur, hds⟩
      simp [effectPlayingTrue, hst]
  | seek t =>
    exact ⟨hst, clampPos_nonneg s t, clampPos_le s t hdur, hdur, hds⟩
  | tick t =>
    simp only [step, handleTimeUpdate]
    split
    · exact ⟨hst, clampPos_nonneg s t, clampPos_le s t hdur, hdur, Or.inr rfl⟩
    · exact ⟨hst, clampPos_nonneg s t, clampPos_le s t hdur, hdur, Or.inr rfl⟩
  | ended =>
    simp only [step, handleEnded_fst]
    exact ⟨hst, hpos0, hposd, hdur, hds⟩
  | skip =>
    simp only [step, handleSkip_fst]
    exact ⟨hst, hpos0, hposd, hdur, hds⟩

theorem step_good (s : PState) (e : PEvent) (h : PInv s) :
    ∀ x ∈ (step s e).2, GoodLog x := by
  obtain ⟨hst, hpos0, hposd, hdur, hds⟩ := h
  cases e with
  | toggle =>
    simp only [step]
    split <;> simp
  | seek t => simp [step, handleSeek]
  | tick t =>
    simp only [step, handleTimeUpdate]
    split
    · rename_i hcond
      obtain ⟨hd, hlog, hrate⟩ := hcond
      intro x hx
      rcases List.mem_singleton.mp hx with rfl
      refine ⟨?_, ?_, ?_, rfl, hrate⟩
      · rw [hst]
        simp only [Option.getD_some, sub_zero]
        exact Int.floor_nonneg.mpr (clampPos_nonneg s t)
      · exact div_nonneg (clampPos_nonneg s t) (le_of_lt hd)
      · exact (div_le_one hd).mpr (clampPos_le s t hdur)
    · simp
  | ended =>
    obtain ⟨dur, pos, prog, ds, pst, hl, pl⟩ := s
    simp only at hst hpos0 hposd hdur hds
    subst hst
    simp only [step, handleEnded]
    split
    · intro x hx
      rcases List.mem_singleton.mp hx with rfl
      refine ⟨?_, by norm_num, by norm_num, rfl, by norm_num⟩
      simp only [logPlayEvent, sub_zero]
      rcases hds with h0 | hd
      · rw [h0]
        simp
      · rw [hd]
        exact Int.floor_nonneg.mpr hdur
    · simp
  | skip =>
    obtain ⟨dur, pos, prog, ds, pst, hl, pl⟩ := s
    simp only at hst hpos0 hposd hdur hds
    subst hst
    simp only [step, handleSkip, sub_zero]
    split
    · intro x hx
      rcases List.mem_singleton.mp hx with rfl
      exact Int.floor_nonneg.mpr hpos0
    · rename_i hge
      push_neg at hge
      split
      · intro x hx
        rcases List.mem_singleton.mp hx with rfl
        have hdspos : 0 < ds := by
          by_contra hc
          rw [skipRate] at hge
          simp only at hge
          rw [if_neg hc] at hge
          norm_num at hge
        have hrateeq : skipRate ⟨dur, pos, prog, ds, some 0, hl, pl⟩ = pos / ds := by
          rw [skipRate, if_pos hdspos]
        have hratele : skipRate ⟨dur, pos, prog, ds, some 0, hl, pl⟩ ≤ 1 := by
          rw [hrateeq]
          rcases hds with h0 | hd
          · exact absurd h0 (ne_of_gt hdspos)
          · rw [hd] at hdspos ⊢
            exact (div_le_one hdspos).mpr hposd
        exact ⟨Int.floor_nonneg.mpr hpos0, le_trans (by norm_num) hge, hratele, rfl, hge⟩
      · simp

theorem runFrom_good (s : PState) (evs : List PEvent) (h : PInv s) :
    ∀ x ∈ (runFrom s evs).2, GoodLog x := by
  induction evs generalizing s with
  | nil => simp [runFrom]
  | cons e evs ih =>
    simp only [runFrom, List.mem_append]
    intro x hx
    rcases hx with hx | hx
    · exact step_good s e h x hx
    · exact ih (step s e).1 (step_inv s e h) x hx

theorem run_good (dur : ℚ) (hdur : 0 ≤ dur) (evs : List PEvent) :
    ∀ x ∈ (run dur evs).2, GoodLog x :=
  runFrom_good (initState dur) evs (initState_inv dur hdur)

/-- Claim C1: for every play event the Player logs (via logPlay /
POST /api/play-history), the completed flag equals the predicate
completion_rate ≥ 0.80, over every reachable player state and
toggle/seek/timeupdate/skip/end sequence. -/
theorem claim1_completed_iff_rate (dur : ℚ) (hdur : 0 ≤ dur) (evs : List PEvent)
    (p : PlayLog) (hp : Logged.play p ∈ (run dur evs).2) :
    p.completed = true ↔ (8 : ℚ)/10 ≤ p.completionRate := by
  obtain ⟨_, _, _, hc, hr⟩ := run_good dur hdur evs _ hp
  exact ⟨fun _ => hr, fun _ => hc⟩

theorem claim1_witness :
    Logged.play ⟨80, 4/5, true⟩ ∈ (run 100 [PEvent.tick 80]).2 ∧
      ((true = true) ↔ (8 : ℚ)/10 ≤ (PlayLog.mk 80 (4/5) true).completionRate) := by
  have hmem : Logged.play ⟨80, 4/5, true⟩ ∈ (run 100 [PEvent.tick 80]).2 := by
    norm_num [run, runFrom, step, handleTimeUpdate, initState, effectPlayingTrue,
      clampPos, logPlayEvent, min_def, max_def]
  exact ⟨hmem, claim1_completed_iff_rate 100 (by norm_num) [PEvent.tick 80] _ hmem⟩

/-- Claim C2: a manual skip (handleSkip, for prev or next) logs a skip
event only when the completion rate it computes is strictly below 0.8;
at or above 0.8 no skip event is emitted and instead a completed play is
logged, unless one was already logged, in which case nothing is emitted.
This holds for every player state, in particular every reachable one. -/
theorem claim2_skip_below_threshold (s : PState) :
    (∀ k : SkipLog, Logged.skip k ∈ (step s PEvent.skip).2 → skipRate s < (8 : ℚ)/10) ∧
    ((8 : ℚ)/10 ≤ skipRate s →
      (∀ k : SkipLog, Logged.skip k ∉ (step s PEvent.skip).2) ∧
      (∀ st, s.playStartTime = some st → s.hasLoggedPlay = false →
        (step s PEvent.skip).2 = [logPlayEvent (s.pos - st) (skipRate s) true]) ∧
      (s.hasLoggedPlay = true → (step s PEvent.skip).2 = [])) := by
  obtain ⟨dur, pos, prog, ds, pst, hl, pl⟩ := s
  rcases pst with _ | st
  · refine ⟨fun k hk => absurd hk (by simp [step, handleSkip]), fun hge => ?_⟩
    exact ⟨fun k => by simp [step, handleSkip], fun st hst => by simp at hst,
      fun _ => by simp [step, handleSkip]⟩
  · simp only [step, handleSkip]
    split
    · rename_i hlt
      refine ⟨fun k hk => hlt, fun hge => absurd hge (not_le.mpr hlt)⟩
    · rename_i hge
      push_neg at hge
      rcases hl with _ | _
      · refine ⟨?_, fun _ => ⟨fun k => by simp [logPlayEvent], fun st2 hst2 _ => ?_,
          fun habs => by simp at habs⟩⟩
        · intro k hk
          simp only [if_pos rfl] at hk
          simp [logPlayEvent] at hk
        · obtain rfl : st2 = st := by injection hst2 with h; exact h.symm
          simp
      · refine ⟨?_, fun _ => ⟨fun k => by simp, fun st2 hst2 habs => by simp at habs,
          fun _ => by simp⟩⟩
        intro k hk
        simp at hk

theorem claim2_witness : skipRate ⟨100, 30, 30, 100, some 0, false, true⟩ < (8 : ℚ)/10 :=
  (claim2_skip_below_threshold ⟨100, 30, 30, 100, some 0, false, true⟩).1 ⟨30⟩
    (by norm_num [step, handleSkip, skipRate, logSkipEvent])

/-- Claim C3: every event the Player emits satisfies the data invariants:
a non-negative listen_duration and a completion_rate inside [0, 1] on play
events, and a non-negative time_before_skip on skip events, over every
reachable player state (seeks included). -/
theorem claim3_event_data_invariants (dur : ℚ) (hdur : 0 ≤ dur) (evs : List PEvent)
    (x : Logged) (hx : x ∈ (run dur evs).2) :
    (∀ p : PlayLog, x = Logged.play p →
      0 ≤ p.listenDuration ∧ 0 ≤ p.completionRate ∧ p.completionRate ≤ 1) ∧
    (∀ k : SkipLog, x = Logged.skip k → 0 ≤ k.timeBeforeSkip) := by
  have h := run_good dur hdur evs x hx
  constructor
  · rintro p rfl
    obtain ⟨h1, h2, h3, _, _⟩ := h
    exact ⟨h1, h2, h3⟩
  · rintro k rfl
    exact h

theorem claim3_witness :
    Logged.skip ⟨50⟩ ∈ (run 100 [PEvent.tick 50, PEvent.skip]).2 ∧ 0 ≤ (SkipLog.mk 50).timeBeforeSkip := by
  have hmem : Logged.skip ⟨50⟩ ∈ (run 100 [PEvent.tick 50, PEvent.skip]).2 := by
    norm_num [run, runFrom, step, handleTimeUpdate, handleSkip, initState, effectPlayingTrue,
      clampPos, skipRate, logSkipEvent, logPlayEvent, min_def, max_def]
  exact ⟨hmem,
    (claim3_event_data_invariants 100 (by norm_num) [PEvent.tick 50, PEvent.skip] _ hmem).2 ⟨50⟩ rfl⟩

/-! ## src/utils/Queue.ts

The Queue class is a singly linked list with front and back pointers and a
private _size counter.  The heap of nodes is embedded as an allocation
arena (a list of nodes addressed by index, with fresh nodes appended), so
the pointer structure — including the back pointer rewiring in enqueue and
the back reset in dequeue — is represented faithfully; next pointers are
optional node indices standing for the nullable node references. -/

/-- A Node of src/utils/Queue.ts: payload plus nullable next pointer. -/
structure QNode (α : Type _) where
  data : α
  next : Option ℕ
deriving DecidableEq, Repr

/-- The Queue state: the arena of allocated nodes, the nullable front and
back pointers, and the _size counter (a JS number, embedded as ℤ). -/
structure QueueImpl (α : Type _) where
  heap : List (QNode α)
  front : Option ℕ
  back : Option ℕ
  sz : ℤ
deriving DecidableEq, Repr

/-- State built by the Queue constructor. -/
def emptyQueue (α : Type _) : QueueImpl α := ⟨[], none, none, 0⟩

/-- Assignment node.next = p on the node at index i of the arena. -/
def setNext {α : Type _} : List (QNode α) → ℕ → Option ℕ → List (QNode α)
  | [], _, _ => []
  | n :: t, 0, p => { n with next := p } :: t
  | n :: t, Nat.succ i, p => n :: setNext t i p

/-- Embedding of Queue.enqueue: allocate a node, make the old back point
at it when one exists, move back to it, set front to it when front was
null, and increment _size. -/
def enqueue {α : Type _} (q : QueueImpl α) (d : α) : QueueImpl α :=
  let ptr := q.heap.length
  let heap1 := q.heap ++ [⟨d, none⟩]
  { heap := match q.back with
      | some b => setNext heap1 b (some ptr)
      | none => heap1
    front := match q.front with
      | none => some ptr
      | some f => some f
    back := some ptr
    sz := q.sz + 1 }

/-- Embedding of Queue.dequeue: null front returns null without touching
_size; otherwise advance front, clear back when the queue became empty,
decrement _size and return the removed payload. -/
def dequeue {α : Type _} (q : QueueImpl α) : QueueImpl α × Option α :=
  match q.front with
  | none => (q, none)
  | some f =>
    match q.heap[f]? with
    | none => (q, none)
    | some node =>
      ({ q with
          front := node.next
          back := if node.next = none then none else q.back
          sz := q.sz - 1 },
        some node.data)

/-- Embedding of Queue.peek: the front payload or null. -/
def peek {α : Type _} (q : QueueImpl α) : Option α :=
  match q.front with
  | none => none
  | some f => (q.heap[f]?).map QNode.data

/-- Embedding of Queue.isEmpty: the test _size === 0. -/
def isEmpty {α : Type _} (q : QueueImpl α) : Bool := q.sz = 0

/-- Embedding of Queue.size. -/
def size {α : Type _} (q : QueueImpl α) : ℤ := q.sz

/-- Pointer chase used by Queue.toArray, fuelled to stay total; the fuel
is the arena size, which bounds every duplicate-free chain. -/
def chase {α : Type _} (heap : List (QNode α)) : ℕ → Option ℕ → List α
  | _, none => []
  | 0, some _ => []
  | fuel + 1, some i =>
    match heap[i]? with
    | none => []
    | some n => n.data :: chase heap fuel n.next

/-- Embedding of Queue.toArray: walk the chain from front. -/
def toArray {α : Type _} (q : QueueImpl α) : List α :=
  chase q.heap q.heap.length q.front

/-- Well-formed linked chain from a front pointer to a back pointer
spelling out a payload list, recording the visited indices. -/
inductive Chain {α : Type _} (heap : List (QNode α)) :
    Option ℕ → Option ℕ → List α → List ℕ → Prop
  | nil : Chain heap none none [] []
  | single {i : ℕ} {a : α} :
      heap[i]? = some ⟨a, none⟩ → Chain heap (some i) (some i) [a] [i]
  | cons {i j : ℕ} {a : α} {bk : Option ℕ} {l : List α} {is : List ℕ} :
      heap[i]? = some ⟨a, some j⟩ → Chain heap (some j) bk l is →
      Chain heap (some i) bk (a :: l) (i :: is)

/-- Refinement invariant: the queue's pointer structure is a
duplicate-free chain spelling the model list, and _size agrees. -/
def QInv {α : Type _} (q : QueueImpl α) (l : List α) : Prop :=
  ∃ is, Chain q.heap q.front q.back l is ∧ is.Nodup ∧ q.sz = l.length

theorem chain_mem_lt {α : Type _} {heap : List (QNode α)} {f bk : Option ℕ}
    {l : List α} {is : List ℕ} (h : Chain heap f bk l is) :
    ∀ i ∈ is, i < heap.length := by
  induction h with
  | nil => simp
  | single hget =>
    intro i hi
    rcases List.mem_singleton.mp hi with rfl
    exact (List.getElem?_eq_some.mp hget).1
  | cons hget _ ih =>
    intro i hi
    rcases List.mem_cons.mp hi with rfl | hi
    · exact (List.getElem?_eq_some.mp hget).1
    · exact ih i hi

theorem chain_back_mem {α : Type _} {heap : List (QNode α)} {f bk : Option ℕ}
    {l : List α} {is : List ℕ} (h : Chain heap f bk l is) :
    ∀ b, bk = some b → b ∈ is := by
  induction h with
  | nil =>
    intro b hb
    exact absurd hb (by simp)
  | single hget =>
    intro b hb
    injection hb with hb
    exact hb ▸ List.mem_singleton.mpr rfl
  | cons hget hsub ih =>
    intro b hb
    exact List.mem_cons_of_mem _ (ih b hb)

theorem chain_length {α : Type _} {heap : List (QNode α)} {f bk : Option ℕ}
    {l : List α} {is : List ℕ} (h : Chain heap f bk l is) : is.length = l.length := by
  induction h with
  | nil => rfl
  | single _ => rfl
  | cons _ _ ih => simpa using ih

theorem chain_back_some {α : Type _} {heap : List (QNode α)} {f bk : Option ℕ}
    {l : List α} {is : List ℕ} (h : Chain heap f bk l is) :
    f = none ∨ ∃ b, bk = some b := by
  induction h with
  | nil => exact Or.inl rfl
  | single _ => exact Or.inr ⟨_, rfl⟩
  | cons _ _ ih =>
    right
    rcases ih with h2 | h2
    · exact absurd h2 (by simp)
    · exact h2

theorem setNext_length {α : Type _} :
    ∀ (heap : List (QNode α)) (i : ℕ) (p : Option ℕ),
      (setNext heap i p).length = heap.length
  | [], _, _ => rfl
  | _ :: t, 0, _ => rfl
  | _ :: t, Nat.succ i, p => by
    simp only [setNext, List.length_cons, setNext_length t i p]

theorem setNext_get_other {α : Type _} :
    ∀ (heap : List (QNode α)) (i : ℕ) (p : Option ℕ) (j : ℕ), j ≠ i →
      (setNext heap i p)[j]? = heap[j]?
  | [], _, _, _, _ => by simp [setNext]
  | n :: t, 0, p, 0, hne => absurd rfl hne
  | n :: t, 0, p, Nat.succ j, _ => by simp [setNext]
  | n :: t, Nat.succ i, p, 0, _ => by simp [setNext]
  | n :: t, Nat.succ i, p, Nat.succ j, hne => by
    have : j ≠ i := fun h => hne (by rw [h])
    simp only [setNext, List.getElem?_cons_succ]
    exact setNext_get_other t i p j this

theorem setNext_get_self {α : Type _} :
    ∀ (heap : List (QNode α)) (i : ℕ) (p : Option ℕ) (n : QNode α),
      heap[i]? = some n → (setNext heap i p)[i]? = some { n with next := p }
  | [], i, p, n, h => by simp at h
  | m :: t, 0, p, n, h => by
    simp only [List.getElem?_cons_zero, Option.some_inj] at h
    simp [setNext, h]
  | m :: t, Nat.succ i, p, n, h => by
    simp only [List.getElem?_cons_succ] at h
    simp only [setNext, List.getElem?_cons_succ]
    exact setNext_get_self t i p n h

theorem chain_extend {α : Type _} {heap : List (QNode α)} {f bk : Option ℕ}
    {l : List α} {is : List ℕ} (ext : List (QNode α))
    (h : Chain heap f bk l is) : Chain (heap ++ ext) f bk l is := by
  induction h with
  | nil => exact Chain.nil
  | single hget =>
    exact Chain.single (by
      rw [List.getElem?_append_left (List.getElem?_eq_some.mp hget).1]
      exact hget)
  | cons hget _ ih =>
    exact Chain.cons (by
      rw [List.getElem?_append_left (List.getElem?_eq_some.mp hget).1]
      exact hget) ih

theorem chain_setNext_outside {α : Type _} {heap : List (QNode α)} {f bk : Option ℕ}
    {l : List α} {is : List ℕ} {j : ℕ} {p : Option ℕ}
    (h : Chain heap f bk l is) (hj : j ∉ is) :
    Chain (setNext heap j p) f bk l is := by
  induction h with
  | nil => exact Chain.nil
  | single hget =>
    refine Chain.single ?_
    rw [setNext_get_other heap j p _ (fun he => hj (he ▸ List.mem_singleton.mpr rfl))]
    exact hget
  | cons hget hsub ih =>
    refine Chain.cons ?_ (ih (fun hm => hj (List.mem_cons_of_mem _ hm)))
    rw [setNext_get_other heap j p _ (fun he => hj (he ▸ List.mem_cons_self _ _))]
    exact hget

theorem chain_enqueue {α : Type _} {heap : List (QNode α)} {f bk : Option ℕ}
    {l : List α} {is : List ℕ} (d : α)
    (h : Chain heap f bk l is) (hnd : is.Nodup) :
    ∀ b, bk = some b →
      Chain (setNext (heap ++ [⟨d, none⟩]) b (some heap.length)) f (some heap.length)
        (l ++ [d]) (is ++ [heap.length]) := by
  induction h with
  | nil =>
    intro b hb
    exact absurd hb (by simp)
  | single hget =>
    rename_i i a
    intro b hb
    injection hb with hb
    subst hb
    have hib : i < heap.length := (List.getElem?_eq_some.mp hget).1
    have hget1 : (heap ++ [(⟨d, none⟩ : QNode α)])[i]? = some ⟨a, none⟩ := by
      rw [List.getElem?_append_left hib]
      exact hget
    have hself := setNext_get_self (heap ++ [⟨d, none⟩]) i (some heap.length) _ hget1
    have hnew : (setNext (heap ++ [(⟨d, none⟩ : QNode α)]) i
        (some heap.length))[heap.length]? = some ⟨d, none⟩ := by
      rw [setNext_get_other _ i _ _ (Nat.ne_of_gt hib)]
      rw [List.getElem?_append_right (le_refl heap.length)]
      simp
    exact Chain.cons hself (Chain.single hnew)
  | cons hget hsub ih =>
    rename_i i j a bk2 l2 is2
    intro b hb
    have hbmem : b ∈ is2 := chain_back_mem hsub b hb
    have hnotmem : i ∉ is2 := (List.nodup_cons.mp hnd).1
    have hib : i ≠ b := fun he => hnotmem (he ▸ hbmem)
    have hilt : i < heap.length := (List.getElem?_eq_some.mp hget).1
    have hgeti : (setNext (heap ++ [(⟨d, none⟩ : QNode α)]) b
        (some heap.length))[i]? = some ⟨a, some j⟩ := by
      rw [setNext_get_other _ b _ _ hib, List.getElem?_append_left hilt]
      exact hget
    exact Chain.cons hgeti (ih (List.nodup_cons.mp hnd).2 b hb)

theorem qinv_enqueue {α : Type _} {q : QueueImpl α} {l : List α} (d : α)
    (h : QInv q l) : QInv (enqueue q d) (l ++ [d]) := by
  obtain ⟨heap, f, bk, sz⟩ := q
  obtain ⟨is, hch, hnd, hsz⟩ := h
  simp only at hch hsz
  cases hch with
  | nil =>
    refine ⟨[heap.length], ?_, List.nodup_singleton _, ?_⟩
    · refine Chain.single ?_
      show (heap ++ [(⟨d, none⟩ : QNode α)])[heap.length]? = _
      rw [List.getElem?_append_right (le_refl heap.length)]
      simp
    · simp only [enqueue]
      simp only [List.length_nil, Nat.cast_zero] at hsz
      simp [hsz]
  | single hget =>
    rename_i i a
    have hilt : i < heap.length := (List.getElem?_eq_some.mp hget).1
    refine ⟨[i] ++ [heap.length],
      chain_enqueue d (Chain.single hget) (List.nodup_singleton i) i rfl, ?_, ?_⟩
    · refine List.Nodup.append (List.nodup_singleton _) (List.nodup_singleton _) ?_
      intro x hx hy
      rcases List.mem_singleton.mp hx with rfl
      rcases List.mem_singleton.mp hy with h2
      exact absurd h2 (Nat.ne_of_lt hilt)
    · simp only [enqueue]
      simp only [List.length_singleton, Nat.cast_one] at hsz
      simp [hsz]
  | cons hget hsub =>
    rename_i i j a l2 is2
    obtain ⟨b, rfl⟩ : ∃ b, bk = some b := by
      rcases chain_back_some hsub with h2 | h2
      · exact absurd h2 (by simp)
      · exact h2
    have hch2 : Chain heap (some i) (some b) (a :: l2) (i :: is2) := Chain.cons hget hsub
    refine ⟨(i :: is2) ++ [heap.length], chain_enqueue d hch2 hnd b rfl, ?_, ?_⟩
    · refine List.Nodup.append hnd (List.nodup_singleton _) ?_
      intro x hx hy
      rcases List.mem_singleton.mp hy with rfl
      exact absurd (chain_mem_lt hch2 _ hx) (lt_irrefl _)
    · simp only [enqueue, List.length_append, List.length_cons, List.length_nil]
      rw [hsz]
      simp only [List.length_cons]
      push_cast
      ring

theorem qinv_dequeue {α : Type _} {q : QueueImpl α} {l : List α}
    (h : QInv q l) : QInv (dequeue q).1 l.tail ∧ (dequeue q).2 = l.head? := by
  obtain ⟨heap, f, bk, sz⟩ := q
  obtain ⟨is, hch, hnd, hsz⟩ := h
  simp only at hch hsz
  cases hch with
  | nil =>
    refine ⟨⟨[], Chain.nil, List.nodup_nil, by simpa using hsz⟩, by simp [dequeue]⟩
  | single hget =>
    rename_i i a
    simp only [dequeue]
    rw [hget]
    refine ⟨⟨[], Chain.nil, List.nodup_nil, ?_⟩, rfl⟩
    simp only [List.length_singleton, Nat.cast_one] at hsz
    simp [hsz]
  | cons hget hsub =>
    rename_i i j a l2 is2
    simp only [dequeue]
    rw [hget]
    simp only
    refine ⟨⟨is2, ?_, (List.nodup_cons.mp hnd).2, ?_⟩, rfl⟩
    · simpa using hsub
    · simp only [List.length_cons] at hsz
      simp only [List.tail_cons]
      push_cast at hsz ⊢
      omega

theorem chain_chase {α : Type _} {heap : List (QNode α)} {f bk : Option ℕ}
    {l : List α} {is : List ℕ} (h : Chain heap f bk l is) :
    ∀ fuel, l.length ≤ fuel → chase heap fuel f = l := by
  induction h with
  | nil =>
    intro fuel _
    cases fuel <;> rfl
  | single hget =>
    intro fuel hf
    match fuel, hf with
    | fuel + 1, _ => simp [chase, hget]
  | cons hget hsub ih =>
    intro fuel hf
    match fuel, hf with
    | fuel + 1, hf =>
      simp only [chase, hget]
      rw [ih fuel (by simp only [List.length_cons] at hf; omega)]

theorem nodup_bounded_length {is : List ℕ} (n : ℕ) (hnd : is.Nodup)
    (hlt : ∀ i ∈ is, i < n) : is.length ≤ n := by
  have hsub : is ⊆ List.range n := fun i hi => List.mem_range.mpr (hlt i hi)
  have hle := List.Subperm.length_le (List.Nodup.subperm hnd hsub)
  simpa using hle

theorem qinv_toArray {α : Type _} {q : QueueImpl α} {l : List α} (h : QInv q l) :
    toArray q = l := by
  obtain ⟨is, hch, hnd, _⟩ := h
  have hlen : l.length ≤ q.heap.length := by
    rw [← chain_length hch]
    exact nodup_bounded_length _ hnd (chain_mem_lt hch)
  exact chain_chase hch q.heap.length hlen

theorem qinv_peek {α : Type _} {q : QueueImpl α} {l : List α} (h : QInv q l) :
    peek q = l.head? := by
  obtain ⟨heap, f, bk, sz⟩ := q
  obtain ⟨is, hch, _, _⟩ := h
  simp only at hch
  cases hch with
  | nil => rfl
  | single hget =>
    simp only [peek]
    rw [hget]
    rfl
  | cons hget hsub =>
    simp only [peek]
    rw [hget]
    rfl

theorem qinv_size {α : Type _} {q : QueueImpl α} {l : List α} (h : QInv q l) :
    size q = l.length := by
  obtain ⟨is, hch, hnd, hsz⟩ := h
  exact hsz

theorem qinv_isEmpty {α : Type _} {q : QueueImpl α} {l : List α} (h : QInv q l) :
    isEmpty q = true ↔ l = [] := by
  obtain ⟨is, hch, hnd, hsz⟩ := h
  simp only [isEmpty, hsz, decide_eq_true_eq]
  constructor
  · intro h2
    have : l.length = 0 := by exact_mod_cast h2
    exact List.length_eq_zero.mp this
  · rintro rfl
    simp

/-- A sequence of operations driving a Queue instance. -/
inductive QOp (α : Type _) where
  | enq (a : α)
  | deq
deriving DecidableEq, Repr

/-- Apply one operation to the linked-list queue. -/
def applyImpl {α : Type _} (q : QueueImpl α) : QOp α → QueueImpl α
  | QOp.enq a => enqueue q a
  | QOp.deq => (dequeue q).1

/-- The functional model: enqueue appends at the back, dequeue drops the
front. -/
def applyModel {α : Type _} (l : List α) : QOp α → List α
  | QOp.enq a => l ++ [a]
  | QOp.deq => l.tail

/-- Run a Queue instance from its constructor state. -/
def runQueue {α : Type _} (ops : List (QOp α)) : QueueImpl α :=
  ops.foldl applyImpl (emptyQueue α)

/-- Run the functional model from the empty list. -/
def runQueueModel {α : Type _} (ops : List (QOp α)) : List α :=
  ops.foldl applyModel []

theorem qinv_foldl {α : Type _} (ops : List (QOp α)) :
    ∀ (q : QueueImpl α) (l : List α), QInv q l →
      QInv (ops.foldl applyImpl q) (ops.foldl applyModel l) := by
  induction ops with
  | nil => exact fun q l h => h
  | cons op ops ih =>
    intro q l h
    simp only [List.foldl_cons]
    cases op with
    | enq a => exact ih _ _ (qinv_enqueue a h)
    | deq => exact ih _ _ (qinv_dequeue h).1

theorem qinv_run {α : Type _} (ops : List (QOp α)) :
    QInv (runQueue ops) (runQueueModel ops) :=
  qinv_foldl ops (emptyQueue α) [] ⟨[], Chain.nil, List.nodup_nil, by simp [emptyQueue]⟩

/-- Claim C9: the linked-list Queue refines the functional list model.
After any finite sequence of enqueue/dequeue operations from the empty
queue, toArray equals the model list (enqueue appends at the back, dequeue
removes the front), size equals its length, isEmpty holds exactly on the
empty list, and peek and the value returned by dequeue are the model's
head (null, i.e. none, when empty). -/
theorem claim9_queue_refines_list {α : Type _} (ops : List (QOp α)) :
    toArray (runQueue ops) = runQueueModel ops ∧
    size (runQueue ops) = (runQueueModel ops).length ∧
    (isEmpty (runQueue ops) = true ↔ runQueueModel ops = []) ∧
    peek (runQueue ops) = (runQueueModel ops).head? ∧
    (dequeue (runQueue ops)).2 = (runQueueModel ops).head? := by
  have h := qinv_run ops
  exact ⟨qinv_toArray h, qinv_size h, qinv_isEmpty h, qinv_peek h, (qinv_dequeue h).2⟩

/-! ## src/App.tsx: the playback queue

addToQueue checks toArray() for an existing song with the same id and
returns without enqueueing when found; otherwise it enqueues and, when no
current song exists, immediately plays the next queue entry.  The only
other mutation of songQueue anywhere in App.tsx is the dequeue inside
playNextInQueue (also reached from handlePlayPause and handleNext). -/

/-- The only Song field the queue logic inspects is id. -/
structure AppSong where
  id : ℤ
deriving DecidableEq, Repr

/-- The App state components involved in queue handling. -/
structure AppState where
  songQueue : QueueImpl AppSong
  currentSong : Option AppSong
deriving DecidableEq, Repr

/-- Embedding of playNextInQueue from src/App.tsx: dequeue; a song starts
playing, or the player empties out on null. -/
def playNextInQueue (st : AppState) : AppState :=
  let r := dequeue st.songQueue
  { songQueue := r.1, currentSong := r.2 }

/-- Embedding of addToQueue from src/App.tsx (duplicate check via
toArray, enqueue, and the immediate play when nothing is playing). -/
def addToQueue (st : AppState) (song : AppSong) : AppState :=
  let queueArray := toArray st.songQueue
  if queueArray.any (fun queued => queued.id = song.id) then st
  else
    let st2 := { st with songQueue := enqueue st.songQueue song }
    if st.currentSong = none then playNextInQueue st2 else st2

/-- The queue mutations App.tsx can perform. -/
inductive AppOp where
  | add (s : AppSong)
  | next
deriving DecidableEq, Repr

/-- Apply one App operation. -/
def applyApp (st : AppState) : AppOp → AppState
  | AppOp.add s => addToQueue st s
  | AppOp.next => playNextInQueue st

/-- Initial App state: empty queue, no current song. -/
def initApp : AppState := ⟨emptyQueue AppSong, none⟩

/-- Run the App queue logic over a sequence of user actions. -/
def runApp (ops : List AppOp) : AppState := ops.foldl applyApp initApp

/-- The reachability invariant for C10: the queue refines some list whose
ids are pairwise distinct. -/
def AppInv (st : AppState) : Prop :=
  ∃ l, QInv st.songQueue l ∧ (l.map AppSong.id).Nodup

theorem nodup_ids_tail {l : List AppSong} (h : (l.map AppSong.id).Nodup) :
    (l.tail.map AppSong.id).Nodup :=
  List.Nodup.sublist (List.Sublist.map AppSong.id (List.tail_sublist l)) h

theorem appInv_step (st : AppState) (op : AppOp) (h : AppInv st) :
    AppInv (applyApp st op) := by
  obtain ⟨l, hq, hnd⟩ := h
  cases op with
  | next => exact ⟨l.tail, (qinv_dequeue hq).1, nodup_ids_tail hnd⟩
  | add s =>
    simp only [applyApp, addToQueue, qinv_toArray hq]
    split
    · exact ⟨l, hq, hnd⟩
    · rename_i hdup
      have hq2 : QInv (enqueue st.songQueue s) (l ++ [s]) := qinv_enqueue s hq
      have hnd2 : ((l ++ [s]).map AppSong.id).Nodup := by
        rw [List.map_append]
        refine List.Nodup.append hnd (List.nodup_singleton _) ?_
        intro x hx hy
        rcases List.mem_singleton.mp hy with rfl
        obtain ⟨y, hy2, hy3⟩ := List.mem_map.mp hx
        exact hdup (List.any_eq_true.mpr ⟨y, hy2, decide_eq_true hy3⟩)
      split
      · exact ⟨(l ++ [s]).tail, (qinv_dequeue hq2).1, nodup_ids_tail hnd2⟩
      · exact ⟨l ++ [s], hq2, hnd2⟩

theorem appInv_foldl (ops : List AppOp) :
    ∀ st, AppInv st → AppInv (ops.foldl applyApp st) := by
  induction ops with
  | nil => exact fun st h => h
  | cons op ops ih =>
    intro st h
    exact ih _ (appInv_step st op h)

theorem appInv_run (ops : List AppOp) : AppInv (runApp ops) :=
  appInv_foldl ops initApp
    ⟨[], ⟨[], Chain.nil, List.nodup_nil, by simp [initApp, emptyQueue]⟩, List.nodup_nil⟩

/-- Claim C10: in every App state reachable from the initial empty queue
through addToQueue and playNextInQueue (the only queue mutations), the
playback queue never holds two songs with the same id. -/
theorem claim10_queue_ids_nodup (ops : List AppOp) :
    ((toArray (runApp ops).songQueue).map AppSong.id).Nodup := by
  obtain ⟨l, hq, hnd⟩ := appInv_run ops
  rw [qinv_toArray hq]
  exact hnd

/-- Claim C8: for every array and every comparator inducing a total
preorder (cmp a b ≤ 0 is total and transitive), mergeSort returns a
permutation of the input that is sorted non-decreasingly under the
comparator and stable: filtering the output by any equivalence class of
the comparator returns exactly the input filtered the same way, i.e.
elements comparing equal keep their original relative order (merge takes
from the left half on ties).  The embedding is purely functional; the
TypeScript code only reads the input via slice and builds fresh arrays, so
input mutation has no counterpart here. -/
theorem claim8_mergeSort_correct {α : Type _} (cmp : α → α → ℚ) (l : List α)
    (htrans : ∀ a b c, cmp a b ≤ 0 → cmp b c ≤ 0 → cmp a c ≤ 0)
    (htot : ∀ a b, cmp a b ≤ 0 ∨ cmp b a ≤ 0) :
    (mergeSort cmp l).Perm l ∧
    (mergeSort cmp l).Pairwise (fun a b => cmp a b ≤ 0) ∧
    (∀ x : α, (mergeSort cmp l).filter (fun y => decide (cmp x y ≤ 0 ∧ cmp y x ≤ 0)) =
      l.filter (fun y => decide (cmp x y ≤ 0 ∧ cmp y x ≤ 0))) := by
  refine ⟨mergeSort_perm cmp l, mergeSort_sorted cmp htrans htot l, fun x => ?_⟩
  refine mergeSort_filter cmp htrans htot _ ?_ l
  intro c b hc hb
  rw [decide_eq_true_eq] at hc hb
  exact htrans c x b hc.2 hb.1

theorem claim8_witness :
    (mergeSort (fun a b : ℤ => (a : ℚ) - b) [3, 1, 2]).Perm [3, 1, 2] ∧
    (mergeSort (fun a b : ℤ => (a : ℚ) - b) [3, 1, 2]).Pairwise
      (fun a b : ℤ => (a : ℚ) - (b : ℚ) ≤ 0) ∧
    (mergeSort (fun a b : ℤ => (a : ℚ) - b) [3, 1, 2]).filter
        (fun y : ℤ => decide (((1 : ℤ) : ℚ) - (y : ℚ) ≤ 0 ∧ (y : ℚ) - ((1 : ℤ) : ℚ) ≤ 0)) =
      [3, 1, 2].filter
        (fun y : ℤ => decide (((1 : ℤ) : ℚ) - (y : ℚ) ≤ 0 ∧ (y : ℚ) - ((1 : ℤ) : ℚ) ≤ 0)) := by
  have h := claim8_mergeSort_correct (fun a b : ℤ => (a : ℚ) - b) [3, 1, 2]
    (fun a b c h1 h2 => by
      replace h1 : (a : ℚ) - (b : ℚ) ≤ 0 := h1
      replace h2 : (b : ℚ) - (c : ℚ) ≤ 0 := h2
      show (a : ℚ) - (c : ℚ) ≤ 0
      linarith)
    (fun a b => by
      show (a : ℚ) - (b : ℚ) ≤ 0 ∨ (b : ℚ) - (a : ℚ) ≤ 0
      rcases le_total (a : ℚ) (b : ℚ) with h | h
      · exact Or.inl (by linarith)
      · exact Or.inr (by linarith))
  exact ⟨h.1, h.2.1, h.2.2 1⟩

/-! ## Recommendation engine (backend)

The repository documents a backend recommendation engine
(backend/recommendations.py, reached through /api/recommendations,
/api/listening-stats, ...), but that Python source is not part of the
snapshot; only its documentation and its frontend callers are.  The
definitions below are therefore modelled from the specification (sections
3, 4.1 - 4.5) rather than translated from source, as their doc comments
state. -/

/-- Modelled from the spec: the audio feature vector of a song (bpm,
energy, danceability, valence, acousticness), each dimension a bounded
number with missing values absent, not zero. -/
structure AudioVec where
  bpm : Option ℚ
  energy : Option ℚ
  danceability : Option ℚ
  valence : Option ℚ
  acousticness : Option ℚ
deriving DecidableEq, Repr

/-- Modelled from the spec: a Song of the Feature Store.  Fields not used
by any claim (title, album, duration, skip_count) are omitted. -/
structure MSong where
  id : ℤ
  artist : String
  genre : Option String
  playCount : ℤ
  audio : AudioVec
deriving DecidableEq, Repr

/-- Modelled from the spec: a PlayEvent of the Event Log. -/
structure MPlayEvent where
  userId : ℤ
  songId : ℤ
  ts : ℚ
  listenDuration : ℚ
  completionRate : ℚ
  completed : Bool
deriving DecidableEq, Repr

/-- Product of one shared audio dimension; a missing side contributes 0. -/
def dotField : Option ℚ → Option ℚ → ℚ
  | some a, some b => a * b
  | _, _ => 0

/-- Dot product of two audio vectors restricted to shared dimensions. -/
def dotVec (v w : AudioVec) : ℚ :=
  dotField v.bpm w.bpm + dotField v.energy w.energy +
    dotField v.danceability w.danceability + dotField v.valence w.valence +
    dotField v.acousticness w.acousticness

/-- Number of dimensions present on both sides. -/
def sharedCount (v w : AudioVec) : ℕ :=
  (if v.bpm.isSome ∧ w.bpm.isSome then 1 else 0) +
    (if v.energy.isSome ∧ w.energy.isSome then 1 else 0) +
    (if v.danceability.isSome ∧ w.danceability.isSome then 1 else 0) +
    (if v.valence.isSome ∧ w.valence.isSome then 1 else 0) +
    (if v.acousticness.isSome ∧ w.acousticness.isSome then 1 else 0)

/-- Exact rational square root on perfect squares: for q = a/b in lowest
terms it returns (Nat.sqrt a)/(Nat.sqrt b), which equals the real square
root whenever numerator and denominator are perfect squares — in
particular on every radicand of the form d * d arising in the proved
claims.  (The real square root is irrational in general and has no
computable rational counterpart; the claims settled below only inspect
cosine values on perfect-square radicands or through the [0,1] clamp,
which this approximation leaves intact.) -/
def ratSqrt (q : ℚ) : ℚ := ((Nat.sqrt q.num.toNat : ℚ)) / ((Nat.sqrt q.den : ℚ))

/-- Clamp into [0, 1], the spec's flooring of negative cosines at 0
together with the cap at 1. -/
def clamp01 (x : ℚ) : ℚ := max 0 (min 1 x)

/-- Modelled from the spec (section 4.1): cosine similarity of the shared
dimensions, clamped to [0,1]; fewer than one shared dimension yields 0.
Division by a zero norm follows the 0-convention of rational division
(matching the engine's numeric library, which returns 0 for zero
vectors). -/
def audioSimilarity (v w : AudioVec) : ℚ :=
  if sharedCount v w = 0 then 0
  else clamp01 (dotVec v w / ratSqrt (dotVec v v * dotVec w w))

/-- Modelled from the spec: the derived UserTasteProfile — genre and
artist frequency tables (in first-seen order) and a mean audio vector. -/
structure TasteProfile where
  genreCounts : List (String × ℕ)
  artistCounts : List (String × ℕ)
  meanVec : AudioVec
deriving DecidableEq, Repr

/-- Largest count appearing in a frequency table. -/
def maxCount (l : List (String × ℕ)) : ℕ :=
  l.foldr (fun kv m => max kv.2 m) 0

/-- Modelled from the spec: the profile's "top set" — the keys of maximal
frequency. -/
def topKeys (l : List (String × ℕ)) : List String :=
  (l.filter (fun kv => kv.2 = maxCount l)).map Prod.fst

/-- The reference of the Content Similarity Scorer: a Song or a
UserTasteProfile. -/
inductive Reference where
  | song (s : MSong)
  | profile (p : TasteProfile)
deriving DecidableEq, Repr

/-- Modelled from the spec: genreMatch is 1.0 when the candidate's genre
equals the reference song's (or lies in the profile's top genre set) and
0.0 otherwise; a missing genre on either side yields 0.0. -/
def genreMatch (c : MSong) : Reference → ℚ
  | Reference.song s =>
    match c.genre, s.genre with
    | some g, some h => if g = h then 1 else 0
    | _, _ => 0
  | Reference.profile p =>
    match c.genre with
    | none => 0
    | some g => if g ∈ topKeys p.genreCounts then 1 else 0

/-- Modelled from the spec: artistMatch is 1.0 on equal artists (or
membership in the profile's top artist set), else 0.0. -/
def artistMatch (c : MSong) : Reference → ℚ
  | Reference.song s => if c.artist = s.artist then 1 else 0
  | Reference.profile p => if c.artist ∈ topKeys p.artistCounts then 1 else 0

/-- The reference's audio vector: the song's own, or the profile mean. -/
def refVec : Reference → AudioVec
  | Reference.song s => s.audio
  | Reference.profile p => p.meanVec

/-- Modelled from the spec (section 4.1): the Content Similarity Scorer,
score = 0.4 * genreMatch + 0.3 * artistMatch + 0.3 * audioSimilarity. -/
def score (c : MSong) (r : Reference) : ℚ :=
  (4 : ℚ)/10 * genreMatch c r + (3 : ℚ)/10 * artistMatch c r +
    (3 : ℚ)/10 * audioSimilarity c.audio (refVec r)

/-- First occurrences, in order: the deduplication used for frequency
tables and recent-song lists. -/
def dedupKeepFirst {α : Type _} [DecidableEq α] : List α → List α
  | [] => []
  | x :: xs => x :: dedupKeepFirst (xs.filter (fun y => y ≠ x))
termination_by l => l.length
decreasing_by
  simp only [List.length_cons]
  exact Nat.lt_succ_of_le (List.length_filter_le _ _)

/-- Frequency table of a list of keys, in first-seen order. -/
def buildTally {α : Type _} [DecidableEq α] (l : List α) : List (α × ℕ) :=
  (dedupKeepFirst l).map (fun g => (g, l.count g))

/-- The events of one user. -/
def userEvents (events : List MPlayEvent) (u : ℤ) : List MPlayEvent :=
  events.filter (fun e => e.userId = u)

/-- The completed PlayEvents of one user. -/
def completedEvents (events : List MPlayEvent) (u : ℤ) : List MPlayEvent :=
  events.filter (fun e => e.userId = u ∧ e.completed)

/-- Catalog lookup by song id. -/
def songById (songs : List MSong) (i : ℤ) : Option MSong :=
  songs.find? (fun s => s.id = i)

/-- Genres of the songs behind a user's completed plays (events whose
song is unknown or has no genre contribute nothing). -/
def completedGenres (songs : List MSong) (events : List MPlayEvent) (u : ℤ) : List String :=
  (completedEvents events u).filterMap (fun e => (songById songs e.songId).bind MSong.genre)

/-- Artists of the songs behind a user's completed plays. -/
def completedArtists (songs : List MSong) (events : List MPlayEvent) (u : ℤ) : List String :=
  (completedEvents events u).filterMap (fun e => (songById songs e.songId).map MSong.artist)

/-- Mean of the present values of one dimension; absent when no value is
present. -/
def meanOpt (vals : List ℚ) : Option ℚ :=
  if vals.length = 0 then none else some (vals.sum / (vals.length : ℚ))

/-- Dimension-wise mean audio vector. -/
def meanVecOf (vecs : List AudioVec) : AudioVec :=
  { bpm := meanOpt (vecs.filterMap AudioVec.bpm)
    energy := meanOpt (vecs.filterMap AudioVec.energy)
    danceability := meanOpt (vecs.filterMap AudioVec.danceability)
    valence := meanOpt (vecs.filterMap AudioVec.valence)
    acousticness := meanOpt (vecs.filterMap AudioVec.acousticness) }

/-- The songs behind a user's completed plays. -/
def completedSongs (songs : List MSong) (events : List MPlayEvent) (u : ℤ) : List MSong :=
  (completedEvents events u).filterMap (fun e => songById songs e.songId)

/-- Modelled from the spec (section 3): the UserTasteProfile computed on
demand from a user's completed PlayEvents. -/
def buildProfile (songs : List MSong) (events : List MPlayEvent) (u : ℤ) : TasteProfile :=
  { genreCounts := buildTally (completedGenres songs events u)
    artistCounts := buildTally (completedArtists songs events u)
    meanVec := meanVecOf ((completedSongs songs events u).map MSong.audio) }

/-- Modelled from the spec (section 4.4): the aggregator's per-candidate
content score — the neutral 0.5 when the user has < 1 completed
PlayEvents (empty profile), otherwise the Content Similarity Scorer
against the taste profile. -/
def contentScoreFor (songs : List MSong) (events : List MPlayEvent) (u : ℤ) (c : MSong) : ℚ :=
  if completedEvents events u = [] then 1/2
  else score c (Reference.profile (buildProfile songs events u))

/-- Two plays co-occur when their timestamps differ by at most 2 hours
(7200 s) and they concern distinct songs. -/
def pairWithin (e1 e2 : MPlayEvent) : Bool :=
  |e1.ts - e2.ts| ≤ 7200 ∧ e1.songId ≠ e2.songId

/-- Modelled from the spec (section 4.2): every unordered pair of a
user's plays within the 2-hour window, regardless of intervening events. -/
def allPairs : List MPlayEvent → List (ℤ × ℤ)
  | [] => []
  | e :: rest =>
    (rest.filter (pairWithin e)).map (fun e2 => (e.songId, e2.songId)) ++ allPairs rest

/-- Comparator ordering events most recent first. -/
def byTsDesc (e1 e2 : MPlayEvent) : ℚ := e2.ts - e1.ts

/-- Modelled from the spec (section 4.2): the user's last 50 distinct
played songs, most recent first. -/
def recentSongIds (events : List MPlayEvent) (u : ℤ) : List ℤ :=
  (dedupKeepFirst ((mergeSort byTsDesc (userEvents events u)).map MPlayEvent.songId)).take 50

/-- Number of co-occurrence pairs joining the candidate with some recent
song. -/
def cooccurCount (pairs : List (ℤ × ℤ)) (c : ℤ) (recents : List ℤ) : ℕ :=
  (pairs.filter (fun pr => (pr.1 = c ∧ pr.2 ∈ recents) ∨ (pr.2 = c ∧ pr.1 ∈ recents))).length

/-- Modelled from the spec (section 4.2): coOccurrenceScore(candidate,
recentSongIds) = count / max(1, number of recent songs). -/
def collabScoreFor (events : List MPlayEvent) (u : ℤ) (c : ℤ) : ℚ :=
  (cooccurCount (allPairs (userEvents events u)) c (recentSongIds events u) : ℚ) /
    max 1 ((recentSongIds events u).length : ℚ)

/-- Global maximum play count over the catalog. -/
def maxPlayCount (songs : List MSong) : ℤ :=
  songs.foldr (fun s m => max s.playCount m) 0

/-- Modelled from the spec (section 4.3): popularityScore = play_count /
max(1, globalMaxPlayCount). -/
def popularityScore (songs : List MSong) (c : MSong) : ℚ :=
  (c.playCount : ℚ) / max 1 ((maxPlayCount songs : ℤ) : ℚ)

/-- A song counts as recently played when the user has a play of it whose
timestamp lies within the 24 hours before the request (events dated after
the request are excluded as well). -/
def recentlyPlayed (events : List MPlayEvent) (u : ℤ) (now : ℚ) (s : MSong) : Bool :=
  events.any (fun e => e.userId = u ∧ e.songId = s.id ∧ now - 86400 ≤ e.ts)

/-- Modelled from the spec (section 4.3, step 1): the candidate pool, all
songs minus those the user played in the last 24 hours. -/
def candidatePool (songs : List MSong) (events : List MPlayEvent) (u : ℤ) (now : ℚ) :
    List MSong :=
  songs.filter (fun s => !(recentlyPlayed events u now s))

/-- Modelled from the spec (section 4.3, steps 2-3): finalScore =
0.6 * contentScore + 0.4 * collabScore + 0.1 * popularityScore (the
weights intentionally sum to 1.1 per the documented design). -/
def finalScoreFor (songs : List MSong) (events : List MPlayEvent) (u : ℤ) (c : MSong) : ℚ :=
  (6 : ℚ)/10 * contentScoreFor songs events u c +
    (4 : ℚ)/10 * collabScoreFor events u c.id +
    (1 : ℚ)/10 * popularityScore songs c

/-- The sort order of step 4: descending final score, ties by higher
play_count, then ascending song id for determinism. -/
def recLe (a b : MSong × ℚ) : Prop :=
  b.2 < a.2 ∨ (a.2 = b.2 ∧ (b.1.playCount < a.1.playCount ∨
    (a.1.playCount = b.1.playCount ∧ a.1.id ≤ b.1.id)))

instance recLe_decidable (a b : MSong × ℚ) : Decidable (recLe a b) := by
  unfold recLe
  infer_instance

/-- Comparator realising the step-4 order for mergeSort. -/
def recCmp (a b : MSong × ℚ) : ℚ := if recLe a b then -1 else 1

/-- Modelled from the spec (section 4.3): recommend(userId, limit) —
candidate pool, per-candidate final scores, sort, truncate.  (The
human-readable reason string of step 5 is not modelled; no claim concerns
it.) -/
def recommend (songs : List MSong) (events : List MPlayEvent) (u : ℤ) (now : ℚ)
    (limit : ℕ) : List (MSong × ℚ) :=
  (mergeSort recCmp
    ((candidatePool songs events u now).map
      (fun s => (s, finalScoreFor songs events u s)))).take limit

theorem recLe_trans (a b c : MSong × ℚ) (h1 : recLe a b) (h2 : recLe b c) : recLe a c := by
  rcases h1 with h1 | ⟨he1, h1⟩
  · rcases h2 with h2 | ⟨he2, h2⟩
    · exact Or.inl (lt_trans h2 h1)
    · exact Or.inl (he2 ▸ h1)
  · rcases h2 with h2 | ⟨he2, h2⟩
    · refine Or.inl ?_
      rw [he1]
      exact h2
    · exact Or.inr ⟨he1.trans he2, by omega⟩

theorem recLe_total (a b : MSong × ℚ) : recLe a b ∨ recLe b a := by
  rcases lt_trichotomy a.2 b.2 with h | h | h
  · exact Or.inr (Or.inl h)
  · rcases lt_trichotomy a.1.playCount b.1.playCount with hp | hp | hp
    · exact Or.inr (Or.inr ⟨h.symm, Or.inl hp⟩)
    · rcases le_total a.1.id b.1.id with hi | hi
      · exact Or.inl (Or.inr ⟨h, Or.inr ⟨hp, hi⟩⟩)
      · exact Or.inr (Or.inr ⟨h.symm, Or.inr ⟨hp.symm, hi⟩⟩)
    · exact Or.inl (Or.inr ⟨h, Or.inl hp⟩)
  · exact Or.inl (Or.inl h)

theorem recCmp_le_iff (a b : MSong × ℚ) : recCmp a b ≤ 0 ↔ recLe a b := by
  rw [recCmp]
  split
  · rename_i h
    simpa using h
  · rename_i h
    constructor
    · intro habs
      norm_num at habs
    · intro hle
      exact absurd hle h

theorem recCmp_trans (a b c : MSong × ℚ) (h1 : recCmp a b ≤ 0) (h2 : recCmp b c ≤ 0) :
    recCmp a c ≤ 0 :=
  (recCmp_le_iff a c).mpr
    (recLe_trans a b c ((recCmp_le_iff a b).mp h1) ((recCmp_le_iff b c).mp h2))

theorem recCmp_total (a b : MSong × ℚ) : recCmp a b ≤ 0 ∨ recCmp b a ≤ 0 := by
  rcases recLe_total a b with h | h
  · exact Or.inl ((recCmp_le_iff a b).mpr h)
  · exact Or.inr ((recCmp_le_iff b a).mpr h)

theorem recommend_subset_pool {songs : List MSong} {events : List MPlayEvent} {u : ℤ}
    {now : ℚ} {limit : ℕ} {p : MSong × ℚ} (hp : p ∈ recommend songs events u now limit) :
    p.1 ∈ candidatePool songs events u now ∧ p.2 = finalScoreFor songs events u p.1 := by
  have h1 : p ∈ mergeSort recCmp
      ((candidatePool songs events u now).map (fun s => (s, finalScoreFor songs events u s))) :=
    List.mem_of_mem_take hp
  have h2 := (mergeSort_perm recCmp _).mem_iff.mp h1
  obtain ⟨s, hs, hps⟩ := List.mem_map.mp h2
  obtain rfl : p = (s, finalScoreFor songs events u s) := hps.symm
  exact ⟨hs, rfl⟩

/-- Claim C4: for every user and limit > 0, no song returned by
recommend has a PlayEvent by that user within the 24 hours preceding the
request — recommend scores only the candidate pool, which excludes
recently played songs. -/
theorem claim4_recency_exclusion (songs : List MSong) (events : List MPlayEvent)
    (u : ℤ) (now : ℚ) (limit : ℕ) (hlimit : 0 < limit) (p : MSong × ℚ)
    (hp : p ∈ recommend songs events u now limit) :
    ¬ ∃ e ∈ events, e.userId = u ∧ e.songId = p.1.id ∧ now - 86400 ≤ e.ts ∧ e.ts ≤ now := by
  rintro ⟨e, he, hu, hs, h1, h2⟩
  obtain ⟨hpool, -⟩ := recommend_subset_pool hp
  obtain ⟨-, hnotrecent⟩ := List.mem_filter.mp hpool
  rw [Bool.not_eq_eq_eq_not, Bool.not_true] at hnotrecent
  have : recentlyPlayed events u now p.1 = true :=
    List.any_eq_true.mpr ⟨e, he, by simp [hu, hs, h1]⟩
  rw [this] at hnotrecent
  exact Bool.true_eq_false.mp hnotrecent

theorem mergeSort_singleton_eval {α : Type _} (cmp : α → α → ℚ) (a : α) :
    mergeSort cmp [a] = [a] := by
  rw [mergeSort]
  norm_num

theorem merge_nil_right_eval {α : Type _} (cmp : α → α → ℚ) (l : List α) :
    merge cmp l [] = l := by
  cases l <;> rw [merge] <;> simp

theorem merge_pair_eval {α : Type _} (cmp : α → α → ℚ) (a b : α) :
    merge cmp [a] [b] = if cmp a b ≤ 0 then [a, b] else [b, a] := by
  rw [merge]
  split
  · rw [merge]
  · rw [merge_nil_right_eval]

theorem mergeSort_pair_eval {α : Type _} (cmp : α → α → ℚ) (a b : α) :
    mergeSort cmp [a, b] = if cmp a b ≤ 0 then [a, b] else [b, a] := by
  rw [mergeSort]
  rw [if_neg (by norm_num)]
  have h1 : [a, b].length / 2 = 1 := by norm_num
  rw [h1]
  simp only [List.take, List.drop]
  rw [mergeSort_singleton_eval, mergeSort_singleton_eval, merge_pair_eval]

/-- All-absent audio vector used by the concrete examples. -/
def vNone : AudioVec := ⟨none, none, none, none, none⟩

/-- Concrete catalog entries and events for the closed instances below. -/
def songA : MSong := ⟨1, "X", some "Rock", 0, vNone⟩

def songB : MSong := ⟨2, "Y", some "Jazz", 0, vNone⟩

def playA : MPlayEvent := ⟨7, 1, 999000, 100, 1/2, false⟩

theorem claim4_witness :
    (0 < 2) ∧
    ((songB, (3 : ℚ)/10) ∈ recommend [songA, songB] [playA] 7 1000000 2) ∧
    ¬ ∃ e ∈ [playA],
        e.userId = 7 ∧ e.songId = songB.id ∧ (1000000 : ℚ) - 86400 ≤ e.ts ∧
          e.ts ≤ 1000000 := by
  have hpool : candidatePool [songA, songB] [playA] 7 1000000 = [songB] := by
    norm_num [candidatePool, recentlyPlayed, songA, songB, playA]
  have hscore : finalScoreFor [songA, songB] [playA] 7 songB = 3/10 := by
    norm_num [finalScoreFor, contentScoreFor, completedEvents, collabScoreFor, userEvents,
      allPairs, recentSongIds, byTsDesc, dedupKeepFirst, cooccurCount, popularityScore,
      maxPlayCount, mergeSort_singleton_eval, songA, songB, playA]
  have hmem : (songB, (3 : ℚ)/10) ∈ recommend [songA, songB] [playA] 7 1000000 2 := by
    rw [recommend, hpool]
    simp only [List.map_cons, List.map_nil, hscore, mergeSort_singleton_eval]
    simp
  exact ⟨by norm_num, hmem,
    claim4_recency_exclusion [songA, songB] [playA] 7 1000000 2 (by norm_num) _ hmem⟩

theorem ratSqrt_mul_self (q : ℚ) (h : 0 ≤ q) : ratSqrt (q * q) = q := by
  rw [ratSqrt, Rat.mul_self_num q, Rat.mul_self_den q]
  have hnum : 0 ≤ q.num := Rat.num_nonneg.mpr h
  have h1 : (q.num * q.num).toNat = q.num.toNat * q.num.toNat := by
    rw [← Int.toNat_of_nonneg hnum]
    rw [Int.toNat_natCast]
    rw [← Nat.cast_mul, Int.toNat_natCast]
  rw [h1, Nat.sqrt_eq, Nat.sqrt_eq]
  have h2 : ((q.num.toNat : ℚ)) = ((q.num : ℚ)) := by
    rw [← Int.cast_natCast, Int.toNat_of_nonneg hnum]
  rw [h2, Rat.num_div_den q]

theorem genreMatch_bounds (c : MSong) (r : Reference) :
    genreMatch c r = 0 ∨ genreMatch c r = 1 := by
  cases r with
  | song s =>
    rw [genreMatch]
    rcases c.genre with _ | g <;> rcases s.genre with _ | h
    · exact Or.inl rfl
    · exact Or.inl rfl
    · exact Or.inl rfl
    · dsimp only
      split
      · exact Or.inr rfl
      · exact Or.inl rfl
  | profile p =>
    rw [genreMatch]
    rcases c.genre with _ | g
    · exact Or.inl rfl
    · dsimp only
      split
      · exact Or.inr rfl
      · exact Or.inl rfl

theorem artistMatch_bounds (c : MSong) (r : Reference) :
    artistMatch c r = 0 ∨ artistMatch c r = 1 := by
  cases r with
  | song s =>
    rw [artistMatch]
    split
    · exact Or.inr rfl
    · exact Or.inl rfl
  | profile p =>
    rw [artistMatch]
    split
    · exact Or.inr rfl
    · exact Or.inl rfl

theorem audioSimilarity_bounds (v w : AudioVec) :
    0 ≤ audioSimilarity v w ∧ audioSimilarity v w ≤ 1 := by
  rw [audioSimilarity]
  split
  · norm_num
  · rw [clamp01]
    constructor
    · exact le_max_left 0 _
    · exact max_le (by norm_num) (min_le_left _ _)

theorem sharedCount_zero_dot_self {v : AudioVec} (h : sharedCount v v = 0) :
    dotVec v v = 0 := by
  obtain ⟨b, en, d, va, ac⟩ := v
  rcases b with _ | x <;> rcases en with _ | y <;> rcases d with _ | z <;>
    rcases va with _ | w <;> rcases ac with _ | t <;>
    simp [sharedCount, dotVec, dotField] at h ⊢

theorem audioSimilarity_self {v : AudioVec} (h : 0 < dotVec v v) :
    audioSimilarity v v = 1 := by
  have hsc : ¬ sharedCount v v = 0 := fun h0 =>
    absurd (sharedCount_zero_dot_self h0) (ne_of_gt h)
  rw [audioSimilarity, if_neg hsc, ratSqrt_mul_self _ (le_of_lt h),
    div_self (ne_of_gt h), clamp01]
  norm_num

/-- Claim C5 (amended): the Content Similarity Scorer returns
0.4 * genreMatch + 0.3 * artistMatch + 0.3 * audioSimilarity, always in
[0,1], for both reference kinds; a missing genre on either side makes
genreMatch 0.0 (and raises nothing — the function is total); and a
candidate identical to a reference song in genre (present on both sides),
artist and audio vector, with a strictly positive shared dot product,
scores exactly 1.0. -/
theorem claim5_content_score (c : MSong) (r : Reference) :
    (0 ≤ score c r ∧ score c r ≤ 1) ∧
    score c r = (4 : ℚ)/10 * genreMatch c r + (3 : ℚ)/10 * artistMatch c r +
      (3 : ℚ)/10 * audioSimilarity c.audio (refVec r) ∧
    (c.genre = none → genreMatch c r = 0) ∧
    (∀ s, r = Reference.song s → s.genre = none → genreMatch c r = 0) ∧
    (∀ s g, r = Reference.song s → c.genre = some g → s.genre = some g →
      c.artist = s.artist → c.audio = s.audio → 0 < dotVec c.audio c.audio →
      score c r = 1) := by
  refine ⟨?_, rfl, ?_, ?_, ?_⟩
  · have hg := genreMatch_bounds c r
    have ha := artistMatch_bounds c r
    have hs := audioSimilarity_bounds c.audio (refVec r)
    rw [score]
    rcases hg with hg | hg <;> rcases ha with ha | ha <;> rw [hg, ha] <;>
      constructor <;> linarith [hs.1, hs.2]
  · intro hnone
    cases r with
    | song s =>
      rw [genreMatch, hnone]
    | profile p =>
      rw [genreMatch, hnone]
  · rintro s rfl hnone
    rw [genreMatch, hnone]
    rcases c.genre with _ | g <;> rfl
  · rintro s g rfl hc hs hart haud hdot
    rw [score, genreMatch, hc, hs]
    rw [artistMatch, if_pos hart]
    rw [refVec, ← haud, audioSimilarity_self hdot]
    norm_num

/-- The counterexamples and witnesses below use small concrete songs. -/
def vZero : AudioVec := ⟨none, some 0, none, none, none⟩

def vOne : AudioVec := ⟨none, some 1, none, none, none⟩

def songC : MSong := ⟨3, "X", none, 0, vZero⟩

def songD : MSong := ⟨4, "X", some "Rock", 0, vOne⟩

/-- Counterexample to claim C5 as stated: songC has genre, artist and
audio vector identical to the reference (itself) and one shared audio
dimension, yet its content score is 0.3, not 1.0 — the genre is missing
on both (equal) sides, and the only shared dimension holds the value 0,
so the cosine term vanishes. -/
theorem claim5_counterexample :
    1 ≤ sharedCount songC.audio songC.audio ∧
    score songC (Reference.song songC) = (3 : ℚ)/10 := by
  constructor
  · norm_num [songC, vZero, sharedCount]
  · norm_num [score, songC, vZero, genreMatch, artistMatch, audioSimilarity, refVec,
      sharedCount, dotVec, dotField, ratSqrt, clamp01, Nat.sqrt_zero]

theorem claim5_witness :
    songD.genre = some "Rock" ∧ 0 < dotVec songD.audio songD.audio ∧
    score songD (Reference.song songD) = 1 := by
  refine ⟨rfl, by norm_num [songD, vOne, dotVec, dotField], ?_⟩
  exact (claim5_content_score songD (Reference.song songD)).2.2.2.2 songD "Rock"
    rfl rfl rfl rfl rfl (by norm_num [songD, vOne, dotVec, dotField])

theorem mergeSort_nil_eval {α : Type _} (cmp : α → α → ℚ) : mergeSort cmp [] = [] := by
  rw [mergeSort]
  norm_num

theorem filter_nil_of_imp {α : Type _} (l : List α) (P Q : α → Bool)
    (h : l.filter P = []) (himp : ∀ a, Q a = true → P a = true) : l.filter Q = [] := by
  rw [List.filter_eq_nil_iff] at h ⊢
  exact fun a ha hq => h a ha (himp a hq)

theorem completedEvents_nil_of_userEvents_nil {events : List MPlayEvent} {u : ℤ}
    (h : userEvents events u = []) : completedEvents events u = [] := by
  rw [userEvents] at h
  rw [completedEvents]
  refine filter_nil_of_imp events _ _ h ?_
  intro e he
  simp only [decide_eq_true_eq] at he ⊢
  exact he.1

theorem candidatePool_of_no_userEvents {songs : List MSong} {events : List MPlayEvent}
    {u : ℤ} {now : ℚ} (h : userEvents events u = []) :
    candidatePool songs events u now = songs := by
  rw [userEvents, List.filter_eq_nil_iff] at h
  rw [candidatePool, List.filter_eq_self]
  intro s hs
  rw [Bool.not_eq_eq_eq_not, Bool.not_true, recentlyPlayed, List.any_eq_false]
  intro e he
  simp only [decide_eq_true_eq, not_and]
  intro hu
  exact absurd (by simpa using hu) (by simpa using h e he)

theorem collabScoreFor_of_no_userEvents {events : List MPlayEvent} {u : ℤ}
    (h : userEvents events u = []) (c : ℤ) : collabScoreFor events u c = 0 := by
  rw [collabScoreFor, recentSongIds, h, mergeSort_nil_eval]
  norm_num [allPairs, cooccurCount, dedupKeepFirst]

theorem finalScoreFor_of_no_userEvents {songs : List MSong} {events : List MPlayEvent}
    {u : ℤ} (h : userEvents events u = []) (c : MSong) :
    finalScoreFor songs events u c = 3/10 + (1 : ℚ)/10 * popularityScore songs c := by
  rw [finalScoreFor, contentScoreFor, if_pos (completedEvents_nil_of_userEvents_nil h),
    collabScoreFor_of_no_userEvents h c.id]
  ring

theorem popularityScore_mono {songs : List MSong} {a b : MSong}
    (hpc : a.playCount ≤ b.playCount) :
    popularityScore songs a ≤ popularityScore songs b := by
  rw [popularityScore, popularityScore]
  have hM : (0 : ℚ) < max 1 ((maxPlayCount songs : ℤ) : ℚ) :=
    lt_of_lt_of_le one_pos (le_max_left _ _)
  rw [div_le_div_iff_of_pos_right hM]
  exact_mod_cast hpc

/-- Claim C6 (amended): for a user with zero completed PlayEvents the
content score is the neutral 0.5 for every candidate; when the user
moreover has no PlayEvents at all, the collaborative score is 0 for every
candidate and recommend returns — for a non-empty catalog and a positive
limit — a non-empty result ordered by descending play_count (pure
popularity fallback).  A user with zero completed but some non-completed
plays can receive non-zero collaborative scores (see the
counterexample), so there the popularity ordering is not guaranteed. -/
theorem claim6_cold_start (songs : List MSong) (events : List MPlayEvent) (u : ℤ)
    (now : ℚ) (limit : ℕ) :
    (completedEvents events u = [] → ∀ c, contentScoreFor songs events u c = 1/2) ∧
    (userEvents events u = [] →
      (∀ c, collabScoreFor events u c = 0) ∧
      (songs ≠ [] → 0 < limit → recommend songs events u now limit ≠ []) ∧
      (recommend songs events u now limit).Pairwise
        (fun a b => b.1.playCount ≤ a.1.playCount)) := by
  refine ⟨fun hce c => by rw [contentScoreFor, if_pos hce], fun hue => ⟨?_, ?_, ?_⟩⟩
  · exact collabScoreFor_of_no_userEvents hue
  · intro hsongs hlimit habs
    have hlen := congrArg List.length habs
    rw [recommend, List.length_take, List.length_nil,
      (mergeSort_perm recCmp _).length_eq, List.length_map] at hlen
    have hpos : 0 < (candidatePool songs events u now).length := by
      rw [candidatePool_of_no_userEvents hue]
      exact List.length_pos.mpr hsongs
    omega
  · have hsorted := mergeSort_sorted recCmp recCmp_trans recCmp_total
      ((candidatePool songs events u now).map (fun s => (s, finalScoreFor songs events u s)))
    have htake : (recommend songs events u now limit).Pairwise
        (fun a b => recCmp a b ≤ 0) :=
      List.Pairwise.sublist (List.take_sublist _ _) hsorted
    refine List.Pairwise.imp_of_mem ?_ htake
    intro a b ha hb hab
    have hsa := (recommend_subset_pool ha).2
    have hsb := (recommend_subset_pool hb).2
    rw [finalScoreFor_of_no_userEvents hue] at hsa hsb
    rcases (recCmp_le_iff a b).mp hab with hlt | ⟨heq, hrest⟩
    · by_contra hcon
      push_neg at hcon
      have hm : popularityScore songs a.1 ≤ popularityScore songs b.1 :=
        popularityScore_mono (le_of_lt hcon)
      have hle : a.2 ≤ b.2 := by
        rw [hsa, hsb]
        linarith
      exact absurd hle (not_le.mpr hlt)
    · rcases hrest with hpc | ⟨hpc, _⟩
      · exact le_of_lt hpc
      · exact le_of_eq hpc.symm

/-- Two incomplete plays of distinct songs by user 7, one hour apart. -/
def playB : MPlayEvent := ⟨7, 1, 0, 10, 3/10, false⟩

def playC : MPlayEvent := ⟨7, 2, 3600, 10, 3/10, false⟩

/-- A catalog entry with a positive play count. -/
def songE : MSong := ⟨5, "Z", none, 10, vNone⟩

/-- Counterexample to claim C6 as stated: user 7 has zero completed
PlayEvents, yet two non-completed plays inside one 2-hour window give
candidate song 1 the collaborative score 1/2, not 0. -/
theorem claim6_counterexample :
    completedEvents [playB, playC] 7 = [] ∧
    collabScoreFor [playB, playC] 7 1 = 1/2 := by
  constructor
  · norm_num [completedEvents, playB, playC]
  · have hue : userEvents [playB, playC] 7 = [playB, playC] := by
      norm_num [userEvents, playB, playC]
    have hsort : mergeSort byTsDesc [playB, playC] = [playC, playB] := by
      rw [mergeSort_pair_eval]
      norm_num [byTsDesc, playB, playC]
    have hrec : recentSongIds [playB, playC] 7 = [2, 1] := by
      rw [recentSongIds, hue, hsort]
      have hd : dedupKeepFirst ([playC, playB].map MPlayEvent.songId) = [2, 1] := by
        norm_num [playB, playC, dedupKeepFirst]
      rw [hd]
      rw [List.take_of_length_le (by norm_num)]
    rw [collabScoreFor, hue, hrec]
    have hpairs : allPairs [playB, playC] = [(1, 2)] := by
      norm_num [allPairs, pairWithin, playB, playC]
    rw [hpairs]
    norm_num [cooccurCount]

theorem claim6_witness :
    contentScoreFor [songB, songE] [] 9 songB = 1/2 ∧
    collabScoreFor [] 9 2 = 0 ∧
    recommend [songB, songE] [] 9 0 2 ≠ [] ∧
    (recommend [songB, songE] [] 9 0 2).Pairwise
      (fun a b => b.1.playCount ≤ a.1.playCount) := by
  have h := claim6_cold_start [songB, songE] [] 9 0 2
  exact ⟨h.1 rfl songB, (h.2 rfl).1 2, (h.2 rfl).2.1 (by simp) (by norm_num),
    (h.2 rfl).2.2⟩

/-- Modelled from the spec (section 4.5): the listening statistics
record. -/
structure StatsResult where
  totalPlays : ℕ
  totalListeningTime : ℚ
  favoriteGenres : List (String × ℕ)
  favoriteArtists : List (String × ℕ)
deriving DecidableEq, Repr

/-- Comparator sorting frequency entries by descending count; a stable
sort on it leaves equal counts in their original (first-seen) order. -/
def countDesc (a b : String × ℕ) : ℚ := (b.2 : ℚ) - (a.2 : ℚ)

/-- Modelled from the spec (section 4.5): count, sort descending (ties
first-seen through stability), truncate to 5. -/
def topFive (keys : List String) : List (String × ℕ) :=
  (mergeSort countDesc (buildTally keys)).take 5

/-- Modelled from the spec (section 4.5): stats(userId) — total_plays
counts completed PlayEvents, total_listening_time sums listen_duration
over all of the user's PlayEvents, favourites tally completed plays
only. -/
def listeningStats (songs : List MSong) (events : List MPlayEvent) (u : ℤ) : StatsResult :=
  { totalPlays :=
      (userEvents events u).foldl (fun n e => if e.completed then n + 1 else n) 0
    totalListeningTime :=
      (userEvents events u).foldl (fun t e => t + e.listenDuration) 0
    favoriteGenres := topFive (completedGenres songs events u)
    favoriteArtists := topFive (completedArtists songs events u) }

theorem countDesc_trans (a b c : String × ℕ) (h1 : countDesc a b ≤ 0)
    (h2 : countDesc b c ≤ 0) : countDesc a c ≤ 0 := by
  rw [countDesc] at h1 h2 ⊢
  linarith

theorem countDesc_total (a b : String × ℕ) : countDesc a b ≤ 0 ∨ countDesc b a ≤ 0 := by
  rw [countDesc, countDesc]
  rcases le_total (a.2 : ℚ) (b.2 : ℚ) with h | h
  · exact Or.inr (by linarith)
  · exact Or.inl (by linarith)

theorem dedupKeepFirst_nil {α : Type _} [DecidableEq α] :
    dedupKeepFirst ([] : List α) = [] := by
  rw [dedupKeepFirst]

theorem dedupKeepFirst_cons {α : Type _} [DecidableEq α] (x : α) (xs : List α) :
    dedupKeepFirst (x :: xs) = x :: dedupKeepFirst (xs.filter (fun y => y ≠ x)) := by
  rw [dedupKeepFirst]

theorem dedupKeepFirst_subset {α : Type _} [DecidableEq α] :
    ∀ l : List α, dedupKeepFirst l ⊆ l
  | [] => by
    rw [dedupKeepFirst]
    exact fun y hy => absurd hy (by simp)
  | x :: xs => by
    rw [dedupKeepFirst]
    intro y hy
    rcases List.mem_cons.mp hy with rfl | hy
    · exact List.mem_cons_self _ _
    · exact List.mem_cons_of_mem _ (List.mem_of_mem_filter (dedupKeepFirst_subset _ hy))
termination_by l => l.length
decreasing_by
  simp only [List.length_cons]
  exact Nat.lt_succ_of_le (List.length_filter_le _ _)

theorem dedupKeepFirst_nodup {α : Type _} [DecidableEq α] :
    ∀ l : List α, (dedupKeepFirst l).Nodup
  | [] => by
    rw [dedupKeepFirst]
    exact List.nodup_nil
  | x :: xs => by
    rw [dedupKeepFirst]
    refine List.nodup_cons.mpr ⟨?_, dedupKeepFirst_nodup _⟩
    intro hmem
    have hx := dedupKeepFirst_subset _ hmem
    have := List.of_mem_filter hx
    simp at this
termination_by l => l.length
decreasing_by
  all_goals
    simp only [List.length_cons]
    exact Nat.lt_succ_of_le (List.length_filter_le _ _)

theorem buildTally_map_fst {α : Type _} [DecidableEq α] (l : List α) :
    (buildTally l).map Prod.fst = dedupKeepFirst l := by
  rw [buildTally, List.map_map]
  exact List.map_id _

theorem topFive_spec (keys : List String) :
    (topFive keys).length ≤ 5 ∧
    (∀ p ∈ topFive keys, p.1 ∈ keys ∧ p.2 = keys.count p.1) ∧
    (topFive keys).Pairwise (fun a b => b.2 ≤ a.2) ∧
    (∀ n : ℕ, (mergeSort countDesc (buildTally keys)).filter (fun pr => pr.2 = n) =
      (buildTally keys).filter (fun pr => pr.2 = n)) ∧
    (buildTally keys).map Prod.fst = dedupKeepFirst keys ∧
    ((topFive keys).map Prod.fst).Nodup ∧
    topFive keys = (mergeSort countDesc (buildTally keys)).take 5 := by
  have hperm := mergeSort_perm countDesc (buildTally keys)
  refine ⟨List.length_take_le _ _, ?_, ?_, ?_, buildTally_map_fst keys, ?_, rfl⟩
  · intro p hp
    have h1 : p ∈ mergeSort countDesc (buildTally keys) := List.mem_of_mem_take hp
    have h2 : p ∈ buildTally keys := hperm.mem_iff.mp h1
    rw [buildTally] at h2
    obtain ⟨g, hg, rfl⟩ := List.mem_map.mp h2
    exact ⟨dedupKeepFirst_subset _ hg, rfl⟩
  · have hsorted := mergeSort_sorted countDesc countDesc_trans countDesc_total
      (buildTally keys)
    rw [topFive]
    refine (List.Pairwise.sublist (List.take_sublist 5 _) hsorted).imp ?_
    intro a b hab
    rw [countDesc] at hab
    have : (b.2 : ℚ) ≤ (a.2 : ℚ) := by linarith
    exact_mod_cast this
  · intro n
    refine mergeSort_filter countDesc countDesc_trans countDesc_total _ ?_ _
    intro x y hx hy
    rw [decide_eq_true_eq] at hx hy
    rw [countDesc, hx, hy]
    simp
  · have hmap : ((mergeSort countDesc (buildTally keys)).map Prod.fst).Perm
        ((buildTally keys).map Prod.fst) := hperm.map Prod.fst
    have hnd : ((mergeSort countDesc (buildTally keys)).map Prod.fst).Nodup := by
      rw [hmap.nodup_iff, buildTally_map_fst]
      exact dedupKeepFirst_nodup keys
    exact List.Nodup.sublist (List.Sublist.map Prod.fst (List.take_sublist _ _)) hnd

theorem foldl_count_completed :
    ∀ (l : List MPlayEvent) (n : ℕ),
      l.foldl (fun n e => if e.completed then n + 1 else n) n =
        n + (l.filter (fun e => e.completed)).length
  | [], n => by simp
  | e :: l, n => by
    simp only [List.foldl_cons, List.filter_cons]
    by_cases hc : e.completed
    · rw [if_pos hc, if_pos (by simpa using hc), foldl_count_completed l (n + 1),
        List.length_cons]
      omega
    · rw [if_neg hc, if_neg (by simpa using hc), foldl_count_completed l n]

theorem foldl_sum_listen :
    ∀ (l : List MPlayEvent) (t : ℚ),
      l.foldl (fun t e => t + e.listenDuration) t =
        t + (l.map MPlayEvent.listenDuration).sum
  | [], t => by simp
  | e :: l, t => by
    simp only [List.foldl_cons, List.map_cons, List.sum_cons]
    rw [foldl_sum_listen l (t + e.listenDuration)]
    ring

/-- Claim C7: listeningStats returns total_plays = the number of the
user's completed PlayEvents, total_listening_time = the sum of
listen_duration over all of the user's PlayEvents, and favourite
genre/artist tables tallied from completed plays only, each entry
carrying the exact tally, sorted descending by count, truncated to 5
without duplicate keys, and with equal counts kept in first-seen order
(the stable sort fixes every tie class to the tally order, whose keys are
the first occurrences in order). -/
theorem claim7_listening_stats (songs : List MSong) (events : List MPlayEvent) (u : ℤ) :
    (listeningStats songs events u).totalPlays =
      (events.filter (fun e => e.userId = u ∧ e.completed)).length ∧
    (listeningStats songs events u).totalListeningTime =
      ((events.filter (fun e => e.userId = u)).map MPlayEvent.listenDuration).sum ∧
    (listeningStats songs events u).favoriteGenres =
      topFive (completedGenres songs events u) ∧
    (listeningStats songs events u).favoriteArtists =
      topFive (completedArtists songs events u) ∧
    (∀ keys, topFive keys =
        (mergeSort countDesc (buildTally keys)).take 5 ∧
      (topFive keys).length ≤ 5 ∧
      (∀ p ∈ topFive keys, p.1 ∈ keys ∧ p.2 = keys.count p.1) ∧
      (topFive keys).Pairwise (fun a b => b.2 ≤ a.2) ∧
      ((topFive keys).map Prod.fst).Nodup ∧
      (∀ n : ℕ, (mergeSort countDesc (buildTally keys)).filter (fun pr => pr.2 = n) =
        (buildTally keys).filter (fun pr => pr.2 = n)) ∧
      (buildTally keys).map Prod.fst = dedupKeepFirst keys) := by
  refine ⟨?_, ?_, rfl, rfl, ?_⟩
  · show (userEvents events u).foldl (fun n e => if e.completed then n + 1 else n) 0 = _
    rw [foldl_count_completed (userEvents events u) 0, Nat.zero_add, userEvents,
      List.filter_filter]
    refine congrArg List.length (List.filter_congr ?_)
    intro e he
    simp [and_comm]
  · show (userEvents events u).foldl (fun t e => t + e.listenDuration) 0 = _
    rw [foldl_sum_listen (userEvents events u) 0, zero_add, userEvents]
  · intro keys
    obtain ⟨h1, h2, h3, h4, h5, h6, h7⟩ := topFive_spec keys
    exact ⟨h7, h1, h2, h3, h6, h4, h5⟩

/-- Catalog and play history for the concrete stats example (user 8):
a completed Rock play of 200 s, an interrupted Rock play of 50 s, a
completed Jazz play of 180 s, a completed Rock play of 100 s. -/
def songF : MSong := ⟨6, "ArtistR", some "Rock", 0, vNone⟩

def songG : MSong := ⟨7, "ArtistJ", some "Jazz", 0, vNone⟩

def playR1 : MPlayEvent := ⟨8, 6, 0, 200, 9/10, true⟩

def playR2 : MPlayEvent := ⟨8, 6, 10, 50, 1/10, false⟩

def playJ1 : MPlayEvent := ⟨8, 7, 20, 180, 9/10, true⟩

def playR3 : MPlayEvent := ⟨8, 6, 30, 100, 9/10, true⟩

theorem claim7_witness :
    (listeningStats [songF, songG] [playR1, playR2, playJ1, playR3] 8).totalPlays = 3 ∧
    (listeningStats [songF, songG] [playR1, playR2, playJ1, playR3] 8).totalListeningTime
      = 530 ∧
    (listeningStats [songF, songG] [playR1, playR2, playJ1, playR3] 8).favoriteGenres =
      [("Rock", 2), ("Jazz", 1)] := by
  have h := claim7_listening_stats [songF, songG] [playR1, playR2, playJ1, playR3] 8
  refine ⟨?_, ?_, ?_⟩
  · rw [h.1]
    norm_num [playR1, playR2, playJ1, playR3]
  · rw [h.2.1]
    norm_num [playR1, playR2, playJ1, playR3]
  · rw [h.2.2.1]
    have hg : completedGenres [songF, songG] [playR1, playR2, playJ1, playR3] 8 =
        ["Rock", "Jazz", "Rock"] := by decide
    have ht : buildTally ["Rock", "Jazz", "Rock"] = [("Rock", 2), ("Jazz", 1)] := by
      simp [buildTally, dedupKeepFirst_cons, dedupKeepFirst_nil, List.count_cons,
        List.count_nil]
    rw [hg, topFive, ht, mergeSort_pair_eval, if_pos (by norm_num [countDesc]),
      List.take_of_length_le (by norm_num)]

end StreamFlow
